import Mathlib

/-!
Verification of the extlib data-structure library (growable array, growable
string, open-addressing hash map) against its natural-language specification.

The C sources are shallowly embedded:
* the hash map (`src/libs/ext_map.c`) becomes a record `ExtMap` holding the two
  parallel arrays (`buckets` of cached 32-bit hash words, `entries` of user
  records) plus the `capacity_mask`, `num_entries` (occupied) and `size`
  (live count) bookkeeping fields; records are values of a type `α` and the
  user callbacks are the fields `hash` and `compare`;
* `size_t` arithmetic that can wrap is modelled with an explicit reduction
  `u64`; `uint32_t` hash values are reduced with `u32`;
* the unbounded probe loop `find_index` is modelled with an explicit step
  budget of one full table sweep and returns `none` exactly when the C loop
  would not have terminated within one sweep (impossible when the table has an
  empty slot, which the load-factor invariant guarantees);
* malloc-obtained uninitialized memory is modelled as `Option`-valued cells
  holding `none` (for the string and vector buffers) or as `default` junk
  values (for map entry slots, which the code never reads while their bucket
  word is EMPTY or TOMBSTONE).
-/

namespace Extlib

/-- Reduction of a `size_t` value (the C type is 64 bits wide). -/
def u64 (n : Nat) : Nat := n % 18446744073709551616

/-- Reduction of a `uint32_t` value. -/
def u32 (n : Nat) : Nat := n % 4294967296

/-- EMPTY_MARK from ext_map.c: bucket hash word 0 marks an empty slot. -/
def EMPTY_MARK : Nat := 0

/-- TOMB_MARK from ext_map.c: bucket hash word 1 marks a tombstone. -/
def TOMB_MARK : Nat := 1

/-- IS_VALID from ext_map.c: a bucket word is live iff it is neither the
EMPTY_MARK nor the TOMB_MARK sentinel. -/
def is_valid_mark (b : Nat) : Bool := !(b == EMPTY_MARK) && !(b == TOMB_MARK)

/-- The ext_map struct from ext_map.h. `buckets` is the metadata array of
cached hash words, `entries` the slot-aligned array of user records. The
unallocated state (`buckets == entries == NULL`) is represented by empty
lists together with `capacity_mask = 0`, exactly the state `ext_map_init`
produces. -/
structure ExtMap (α : Type) where
  hash : α → Nat
  compare : α → α → Bool
  capacity_mask : Nat
  num_entries : Nat
  size : Nat
  buckets : List Nat
  entries : List α

variable {α : Type} [Inhabited α]

/-- Reading bucket slot `idx`; out-of-range reads (impossible in consistent
states) default to the EMPTY_MARK. -/
def bucket_at (m : ExtMap α) (idx : Nat) : Nat := m.buckets.getD idx EMPTY_MARK

/-- entry_at from ext_map.c: reading record slot `idx`. Slots the code never
wrote hold arbitrary junk, modelled by `default`. -/
def entry_at (m : ExtMap α) (idx : Nat) : α := m.entries.getD idx default

/-- hash_entry from ext_map.c: call the user hash callback (a `uint32_t`
value) and remap the reserved sentinel values 0 and 1 by adding 2. -/
def hash_entry (m : ExtMap α) (a : α) : Nat :=
  let h := u32 (m.hash a)
  if h < 2 then h + 2 else h

/-- INITIAL_CAPACITY from ext_map.c. -/
def INITIAL_CAPACITY : Nat := 8

/-- map_grow from ext_map.c. A new pair of arrays of doubled capacity is
allocated (buckets zeroed by calloc, entries uninitialized), and every live
slot of the old arrays is copied to index `cached_hash & (new_cap - 1)` of
the new arrays — the code performs no collision probing here — while
`num_entries` is recounted; tombstones are dropped. -/
def map_grow (m : ExtMap α) : ExtMap α :=
  let new_cap := if m.capacity_mask ≠ 0 then u64 ((m.capacity_mask + 1) * 2) else INITIAL_CAPACITY
  let init_buckets := List.replicate new_cap EMPTY_MARK
  let init_entries := List.replicate new_cap (default : α)
  if m.capacity_mask > 0 then
    let rehashed :=
      (List.range (m.capacity_mask + 1)).foldl
        (fun acc i =>
          let buck := bucket_at m i
          if is_valid_mark buck then
            let new_idx := buck &&& (new_cap - 1)
            (acc.1.set new_idx buck, (acc.2.1.set new_idx (entry_at m i), acc.2.2 + 1))
          else acc)
        (init_buckets, init_entries, 0)
    { m with capacity_mask := new_cap - 1, num_entries := rehashed.2.2,
             buckets := rehashed.1, entries := rehashed.2.1 }
  else
    { m with capacity_mask := new_cap - 1, buckets := init_buckets, entries := init_entries }

/-- Loop body of find_index from ext_map.c. `idx` is the current probe slot,
`tomb` the first tombstone index seen so far (`tomb_found`/`tomb_idx` in the
source). The C loop is unbounded; `fuel` bounds the number of iterations we
unroll, and `none` means the loop did not exit within `fuel` steps. -/
def find_index_aux (m : ExtMap α) (a : α) (hash : Nat) :
    Nat → Option Nat → Nat → Option Nat
  | _, _, 0 => none
  | idx, tomb, fuel + 1 =>
    let buck := bucket_at m idx
    if !(is_valid_mark buck) then
      if buck == EMPTY_MARK then
        some (tomb.getD idx)
      else
        find_index_aux m a hash ((idx + 1) &&& m.capacity_mask)
          (if tomb.isSome then tomb else some idx) fuel
    else if buck == hash && m.compare (entry_at m idx) a then
      some idx
    else
      find_index_aux m a hash ((idx + 1) &&& m.capacity_mask) tomb fuel

/-- find_index from ext_map.c: start probing at `hash & capacity_mask`. One
full sweep of the table (`capacity_mask + 1` steps) is enough fuel whenever
the table contains an empty slot. -/
def find_index (m : ExtMap α) (a : α) (hash : Nat) : Option Nat :=
  find_index_aux m a hash (hash &&& m.capacity_mask) none (m.capacity_mask + 1)

/-- Growth trigger of ext_map_put. The C source compares
`num_entries + 1 > (capacity_mask + 1) * 0.75` in `double` arithmetic; for
the power-of-two capacities the table uses, `0.75 * capacity` is exactly
representable, so the comparison coincides with the exact rational
comparison `4 * (num_entries + 1) > 3 * (capacity_mask + 1)` used here. -/
def put_needs_grow (m : ExtMap α) : Bool :=
  4 * (m.num_entries + 1) > 3 * (m.capacity_mask + 1)

/-- State of the map after the conditional map_grow at the top of
ext_map_put, just before the probe. -/
def put_pre (m : ExtMap α) : ExtMap α :=
  if put_needs_grow m then map_grow m else m

/-- ext_map_put from ext_map.c. Returns `none` if the probe loop would not
terminate (no empty slot — unreachable under the load-factor invariant),
otherwise the C return flag (`true` iff newly inserted) and the new state. -/
def ext_map_put (m : ExtMap α) (a : α) : Option (Bool × ExtMap α) :=
  let m1 := put_pre m
  let hash := hash_entry m1 a
  match find_index m1 a hash with
  | none => none
  | some idx =>
    let buck := bucket_at m1 idx
    let is_new := !(is_valid_mark buck)
    let m2 :=
      if is_new then
        { m1 with size := u64 (m1.size + 1),
                  num_entries := if buck == EMPTY_MARK then u64 (m1.num_entries + 1)
                                 else m1.num_entries }
      else m1
    some (is_new, { m2 with buckets := m2.buckets.set idx hash,
                            entries := m2.entries.set idx a })

/-- ext_map_get from ext_map.c. Outer `none` models a non-terminating probe
loop (unreachable in consistent states); the inner option is the C result,
`none` standing for the NULL "not found" return. -/
def ext_map_get (m : ExtMap α) (a : α) : Option (Option α) :=
  let hash := hash_entry m a
  match find_index m a hash with
  | none => none
  | some idx =>
    if is_valid_mark (bucket_at m idx) then some (some (entry_at m idx))
    else some none

/-- ext_map_erase from ext_map.c. On a live slot the bucket word is set to
TOMB_MARK and `size` is decremented (a `size_t` decrement, hence `u64`);
otherwise the state is returned unchanged with flag `false`. -/
def ext_map_erase (m : ExtMap α) (a : α) : Option (Bool × ExtMap α) :=
  let hash := hash_entry m a
  match find_index m a hash with
  | none => none
  | some idx =>
    if is_valid_mark (bucket_at m idx) then
      some (true, { m with buckets := m.buckets.set idx TOMB_MARK,
                           size := u64 (m.size + 18446744073709551615) })
    else
      some (false, m)

/-- ext_map_init from ext_map.c (the allocation-free part: all counters zero,
both arrays NULL). -/
def ext_map_init (hash : α → Nat) (compare : α → α → Bool) : ExtMap α :=
  { hash := hash, compare := compare, capacity_mask := 0, num_entries := 0,
    size := 0, buckets := [], entries := [] }

/-- ext_map_size from ext_map.c. -/
def ext_map_size (m : ExtMap α) : Nat := m.size

/-- ext_map_capacity from ext_map.c: 0 while unallocated, else
`capacity_mask + 1`. -/
def ext_map_capacity (m : ExtMap α) : Nat :=
  if !m.entries.isEmpty then m.capacity_mask + 1 else 0

/-- Run a sequence of puts, propagating the (never occurring in our concrete
scenarios) probe-divergence marker. -/
def run_puts (m : ExtMap α) : List α → Option (ExtMap α)
  | [] => some m
  | a :: rest =>
    match ext_map_put m a with
    | some p => run_puts p.2 rest
    | none => none

/-- Slot visited by the `j`-th step of the probe sequence that starts at
`hash & capacity_mask`: for the power-of-two capacities the table maintains,
masking is reduction modulo the capacity, and the probe wraps the same way. -/
def probe_slot (m : ExtMap α) (hash j : Nat) : Nat :=
  (hash % (m.capacity_mask + 1) + j) % (m.capacity_mask + 1)

/-- Slot `i` carries the EMPTY sentinel. -/
def empty_at (m : ExtMap α) (i : Nat) : Bool := bucket_at m i == EMPTY_MARK

/-- Slot `i` carries the TOMBSTONE sentinel. -/
def tomb_at (m : ExtMap α) (i : Nat) : Bool := bucket_at m i == TOMB_MARK

/-- Slot `i` is a probe hit for `(a, hash)`: it is live, its cached hash word
equals the probe hash, and the user equality callback accepts the stored
record (compared in the argument order the C source uses). -/
def match_at (m : ExtMap α) (a : α) (hash : Nat) (i : Nat) : Bool :=
  is_valid_mark (bucket_at m i) && (bucket_at m i == hash)
    && m.compare (entry_at m i) a

/-- Consistency of the bucket metadata, from the claim: every live slot holds
exactly the remapped hash of its stored record. -/
def hashes_consistent (m : ExtMap α) : Prop :=
  ∀ i < m.capacity_mask + 1,
    is_valid_mark (bucket_at m i) → bucket_at m i = hash_entry m (entry_at m i)

/-- Resolution of a probe, following the specification text: scanning the
probe path from the start slot, let `e` be the first EMPTY position. If some
hit occurs strictly before `e`, the first such hit is returned; otherwise
the first TOMBSTONE seen strictly before `e` if any; otherwise the
terminating EMPTY slot itself. In particular tombstones never terminate the
scan. -/
def probe_resolution (m : ExtMap α) (a : α) (hash : Nat) (r : Nat) : Prop :=
  ∃ e, e < m.capacity_mask + 1 ∧ empty_at m (probe_slot m hash e)
    ∧ (∀ j, j < e → ¬ empty_at m (probe_slot m hash j))
    ∧ ((∃ jm, jm < e ∧ match_at m a hash (probe_slot m hash jm)
          ∧ (∀ j, j < jm → ¬ match_at m a hash (probe_slot m hash j))
          ∧ r = probe_slot m hash jm)
       ∨ ((∀ j, j < e → ¬ match_at m a hash (probe_slot m hash j))
          ∧ ((∃ jt, jt < e ∧ tomb_at m (probe_slot m hash jt)
                ∧ (∀ j, j < jt → ¬ tomb_at m (probe_slot m hash j))
                ∧ r = probe_slot m hash jt)
             ∨ ((∀ j, j < e → ¬ tomb_at m (probe_slot m hash j))
                ∧ r = probe_slot m hash e))))

/-- Test table over records `(key, payload)`: the user hash callback returns
the key field and the user equality callback compares only the key field, so
the two callbacks agree on the key fields as the hash-table construction
contract requires. -/
def pair_map : ExtMap (Nat × Nat) := ext_map_init (fun r => r.1) (fun r1 r2 => r1.1 == r2.1)

/-- Six records with pairwise distinct keys. The remapped hashes 2 and 18 of
the first two records are distinct modulo the initial capacity 8 after
probing (they land in slots 2 and 3) but congruent modulo the doubled
capacity 16. -/
def c1_records : List (Nat × Nat) :=
  [(2, 100), (18, 200), (4, 3), (5, 4), (6, 5), (7, 6)]

/-- Eight records with pairwise distinct keys (and pairwise distinct remapped
hashes modulo 16), payloads 1..8, for the concrete growth scenario of the
spec. -/
def c2_records : List (Nat × Nat) :=
  [(10, 1), (11, 2), (12, 3), (13, 4), (14, 5), (15, 6), (16, 7), (17, 8)]

/-- Concrete capacity-8 table used to witness the probe-resolution theorem:
slot 2 holds record 2 (cached hash 2), slot 3 is a tombstone, slot 4 holds
record 11 (cached hash 11), every other slot is empty. -/
def probe_witness_map : ExtMap Nat :=
  { hash := fun x => x, compare := fun x y => x == y, capacity_mask := 7,
    num_entries := 3, size := 2,
    buckets := [0, 0, 2, 1, 11, 0, 0, 0],
    entries := [0, 0, 2, 0, 11, 0, 0, 0] }

/-- The growable vector of ext_vector.h: a hidden header `(capacity, size)`
before a buffer of `capacity` element slots. Slots past `size` exist but are
uninitialized or stale, modelled as `Option`-valued cells; a fresh
malloc/realloc tail holds `none`. The NULL handle (a valid representation of
the empty vector) is merged with the `capacity = 0` state, which is
observationally identical through the whole ext_vec API. -/
structure ExtVec (β : Type) where
  capacity : Nat
  size : Nat
  data : List (Option β)

/-- The NULL vector handle. -/
def ext_vec_empty (β : Type) : ExtVec β := ⟨0, 0, []⟩

/-- ext_vec_reserve: no-op when `amount` does not exceed the capacity,
otherwise realloc to exactly `amount` slots, preserving the existing slots
and leaving the new tail uninitialized. -/
def ext_vec_reserve {β : Type} (v : ExtVec β) (amount : Nat) : ExtVec β :=
  if v.capacity < amount then
    { v with capacity := amount,
             data := v.data ++ List.replicate (amount - v.capacity) none }
  else v

/-- Doubling loop of ext_vec_maybe_grow_:
`while (need > new_capacity) new_capacity *= 2`. The C loop is unbounded;
`fuel = need` steps always suffice because the start value is at least 1. -/
def vec_grow_cap (need : Nat) : Nat → Nat → Nat
  | cap, 0 => cap
  | cap, fuel + 1 => if need > cap then vec_grow_cap need (cap * 2) fuel else cap

/-- ext_vec_maybe_grow_: grow geometrically (starting from 1 when currently
unallocated) until `size + amount` fits, then reserve that capacity. -/
def ext_vec_maybe_grow {β : Type} (v : ExtVec β) (amount : Nat) : ExtVec β :=
  if v.size + amount > v.capacity then
    ext_vec_reserve v (vec_grow_cap (v.size + amount)
      (if v.capacity = 0 then 1 else v.capacity * 2) (v.size + amount))
  else v

/-- ext_vec_push_back: grow for one more slot, write the element at index
`size`, then bump `size`. -/
def ext_vec_push_back {β : Type} (v : ExtVec β) (e : β) : ExtVec β :=
  let v1 := ext_vec_maybe_grow v 1
  { v1 with data := v1.data.set v1.size (some e), size := v1.size + 1 }

/-- ext_vec_pop_back: decrement `size`; the slot contents stay in place. The
C macro asserts `size != 0`, so the operation is only ever applied to
non-empty vectors. -/
def ext_vec_pop_back {β : Type} (v : ExtVec β) : ExtVec β :=
  { v with size := v.size - 1 }

/-- ext_vec_insert: grow for one more slot, shift the tail `[i, size)` one
slot right via memmove, write the element at index `i`, bump `size`.
Faithful for the asserted contract `i ≤ size`. -/
def ext_vec_insert {β : Type} (v : ExtVec β) (i : Nat) (e : β) : ExtVec β :=
  let v1 := ext_vec_maybe_grow v 1
  { v1 with
      data := v1.data.take i ++ some e :: ((v1.data.drop i).take (v1.size - i))
        ++ v1.data.drop (v1.size + 1),
      size := v1.size + 1 }

/-- ext_vec_erase: shift the tail `(i, size)` one slot left via memmove
(slot `size - 1` keeps its stale value), decrement `size`. Faithful for the
asserted contract `i < size`. -/
def ext_vec_erase {β : Type} (v : ExtVec β) (i : Nat) : ExtVec β :=
  { v with
      data := v.data.take i ++ ((v.data.drop (i + 1)).take (v.size - i - 1))
        ++ v.data.drop (v.size - 1),
      size := v.size - 1 }

/-- ext_vec_clear: reset `size` to 0, keep capacity and slots. -/
def ext_vec_clear {β : Type} (v : ExtVec β) : ExtVec β := { v with size := 0 }

/-- ext_vec_resize: truncate when shrinking; otherwise reserve and fill the
new slots `[size, new_size)` with `elem`. -/
def ext_vec_resize {β : Type} (v : ExtVec β) (new_size : Nat) (elem : β) : ExtVec β :=
  if new_size < v.size then { v with size := new_size }
  else
    let v1 := ext_vec_reserve v new_size
    { v1 with
        data := v1.data.take v1.size ++ List.replicate (new_size - v1.size) (some elem)
          ++ v1.data.drop new_size,
        size := new_size }

/-- ext_vec_shrink_to_fit: realloc down to exactly `size` slots, or free the
vector entirely (yielding the NULL handle) when `size = 0`. -/
def ext_vec_shrink_to_fit {β : Type} (v : ExtVec β) : ExtVec β :=
  if v.size ≠ 0 then { v with capacity := v.size, data := v.data.take v.size }
  else ⟨0, 0, []⟩

/-- One vector operation of the push/pop fragment. -/
inductive VecOp (β : Type) where
  | push (e : β)
  | pop

/-- Run a list of push/pop operations on a vector. -/
def run_vec_ops {β : Type} (v : ExtVec β) : List (VecOp β) → ExtVec β
  | [] => v
  | VecOp.push e :: rest => run_vec_ops (ext_vec_push_back v e) rest
  | VecOp.pop :: rest => run_vec_ops (ext_vec_pop_back v) rest

/-- Reference model, from the claim's words: the sequence of pushed values
that have not subsequently been popped, in insertion order. -/
def stack_run {β : Type} (l : List β) : List (VecOp β) → List β
  | [] => l
  | VecOp.push e :: rest => stack_run (l ++ [e]) rest
  | VecOp.pop :: rest => stack_run l.dropLast rest

/-- Number of pushes in an operation sequence. -/
def num_pushes {β : Type} : List (VecOp β) → Nat
  | [] => 0
  | VecOp.push _ :: rest => num_pushes rest + 1
  | VecOp.pop :: rest => num_pushes rest

/-- Number of pops in an operation sequence. -/
def num_pops {β : Type} : List (VecOp β) → Nat
  | [] => 0
  | VecOp.push _ :: rest => num_pops rest
  | VecOp.pop :: rest => num_pops rest + 1

/-- Validity of an operation sequence started at stack depth `n`: pop is
only ever applied to a non-empty vector. -/
def pops_valid {β : Type} : Nat → List (VecOp β) → Bool
  | _, [] => true
  | n, VecOp.push _ :: rest => pops_valid (n + 1) rest
  | n, VecOp.pop :: rest => !(n == 0) && pops_valid (n - 1) rest

/-- Concrete vector used to witness the capacity-invariant theorem: three
slots allocated, two in use. -/
def vec_witness : ExtVec Nat := ⟨3, 2, [some 4, some 5, none]⟩

/-- The growable string of ext_string.c: a hidden header `(capacity, size)`
before a byte buffer of `capacity` bytes (`capacity` counts the reserved
NUL-terminator byte). Bytes the code never wrote (malloc/realloc slack) are
modelled as `none`. -/
structure ExtString where
  capacity : Nat
  size : Nat
  data : List (Option Nat)

/-- LOGARITHMIC_GROWTH_TRESH from ext_string.c (1024 * 1024). -/
def LOGARITHMIC_GROWTH_TRESH : Nat := 1048576

/-- Doubling loop of ext_str_maybe_grow:
`while (new_capacity <= limit) new_capacity *= 2`. The C loop is unbounded;
`fuel = limit + 1` steps always suffice because the capacity is at least
1 in every reachable string. -/
def str_grow_cap (limit : Nat) : Nat → Nat → Nat
  | cap, 0 => cap
  | cap, fuel + 1 => if cap ≤ limit then str_grow_cap limit (cap * 2) fuel else cap

/-- ext_str_maybe_grow from ext_string.c: when `size + amount` would not
leave room for the terminator, grow — additively above the logarithmic
threshold, else by doubling until `size + amount < capacity` — and realloc,
preserving the old bytes and leaving the new tail uninitialized. -/
def ext_str_maybe_grow (s : ExtString) (amount : Nat) : ExtString :=
  if s.size + amount ≥ s.capacity then
    let new_capacity :=
      if s.capacity > LOGARITHMIC_GROWTH_TRESH then s.capacity + amount
      else str_grow_cap (s.size + amount) s.capacity (s.size + amount + 1)
    { s with capacity := new_capacity,
             data := s.data ++ List.replicate (new_capacity - s.capacity) none }
  else s

/-- ext_str_new_cap from ext_string.c: malloc `capacity + 1` bytes, set
`size = 0`, `capacity = capacity + 1`. No byte of the buffer is written:
the whole buffer, terminator position included, stays uninitialized. -/
def ext_str_new_cap (capacity : Nat) : ExtString :=
  { capacity := capacity + 1, size := 0, data := List.replicate (capacity + 1) none }

/-- ext_str_new_len from ext_string.c: copy `len` bytes and write the NUL
terminator after them. -/
def ext_str_new_len (bs : List Nat) : ExtString :=
  { capacity := bs.length + 1, size := bs.length, data := bs.map some ++ [some 0] }

/-- ext_str_new from ext_string.c: `ext_str_new_len(cstring, strlen(cstring))`,
the C string given by its byte list. -/
def ext_str_new (bs : List Nat) : ExtString := ext_str_new_len bs

/-- Effect of `vsnprintf(buf, capacity, fmt, args)` on the string buffer when
the full formatted output is `out`: the first `min(out.length, capacity - 1)`
bytes of `out` are stored, a NUL terminator follows them, the remaining bytes
of the buffer are untouched, and `out.length` is returned (the usage below
passes the string's own capacity, as the C source does). -/
def vsnprintf_write (s : ExtString) (out : List Nat) : ExtString :=
  { s with data := (out.take (s.capacity - 1)).map some
      ++ some 0 :: s.data.drop (min out.length (s.capacity - 1) + 1) }

/-- ext_str_vfmt from ext_string.c, parameterized by the format string's
length and the bytes `out` the format expansion produces: allocate twice the
format length, format once; if the output was truncated
(`written >= capacity`), grow to fit `written` and format again; finally set
the size to `written`. -/
def ext_str_vfmt (fmt_len : Nat) (out : List Nat) : ExtString :=
  let str := ext_str_new_cap (fmt_len * 2)
  let capacity := str.capacity
  let written := out.length
  let str1 := vsnprintf_write str out
  if written ≥ capacity then
    let str2 := ext_str_maybe_grow str1 written
    let str3 := vsnprintf_write str2 out
    { str3 with size := written }
  else
    { str1 with size := written }

/-- ext_str_append_len from ext_string.c: grow once, copy the `len` bytes at
position `size`, write the NUL terminator at `size + len`, set the size. -/
def ext_str_append_len (s : ExtString) (bs : List Nat) : ExtString :=
  let s1 := ext_str_maybe_grow s bs.length
  { s1 with
      data := s1.data.take s1.size ++ bs.map some
        ++ some 0 :: s1.data.drop (s1.size + bs.length + 1),
      size := s1.size + bs.length }

/-- Byte content of a string, `data[0, size)`; initialized cells only in the
states the API produces (uninitialized cells read as 0 here). -/
def str_bytes (s : ExtString) : List Nat := (s.data.take s.size).map (fun b => b.getD 0)

/-- ext_str_append_str from ext_string.c:
`ext_str_append_len(str, other, ext_str_size(other))`. -/
def ext_str_append_str (s : ExtString) (other : ExtString) : ExtString :=
  ext_str_append_len s (str_bytes other)

/-- ext_str_append from ext_string.c:
`ext_str_append_len(str, cstring, strlen(cstring))`, the C string given by
its byte list. -/
def ext_str_append (s : ExtString) (cstring : List Nat) : ExtString :=
  ext_str_append_len s cstring

/-- Effect of `vsnprintf(buf + pos, avail, fmt, args)` on the string buffer
when the full formatted output is `out`: with `avail` bytes of room starting
at offset `pos`, the first `min(out.length, avail - 1)` bytes of `out` are
written at `pos`, followed by a NUL terminator; nothing at all is written
when `avail = 0`; the return value is `out.length`. -/
def vsnprintf_write_at (s : ExtString) (pos avail : Nat) (out : List Nat) : ExtString :=
  if avail = 0 then s
  else
    { s with data := s.data.take pos ++ (out.take (avail - 1)).map some
        ++ some 0 :: s.data.drop (pos + min out.length (avail - 1) + 1) }

/-- ext_str_append_vfmt from ext_string.c, parameterized by the bytes `out`
the format expansion produces: format into the `capacity - size` bytes of
room after the current content; if the output was truncated
(`written >= available`), grow for `written` more bytes and format again
into the new room (the C source shadows `written` in this branch, but both
calls return the same full length); finally set the size to
`size + written`. -/
def ext_str_append_vfmt (s : ExtString) (out : List Nat) : ExtString :=
  let capacity := s.capacity
  let size := s.size
  let available := capacity - size
  let written := out.length
  let s1 := vsnprintf_write_at s size available out
  if written ≥ available then
    let s2 := ext_str_maybe_grow s1 written
    let s3 := vsnprintf_write_at s2 size (s2.capacity - size) out
    { s3 with size := size + written }
  else
    { s1 with size := size + written }

/-- ext_str_append_fmt from ext_string.c: wraps the variable argument list
and calls ext_str_append_vfmt. -/
def ext_str_append_fmt (s : ExtString) (out : List Nat) : ExtString :=
  ext_str_append_vfmt s out

/-- ext_str_shrink_to_fit from ext_string.c: realloc down to `size + 1`
bytes when that is smaller than the capacity. -/
def ext_str_shrink_to_fit (s : ExtString) : ExtString :=
  if s.size + 1 < s.capacity then
    { s with capacity := s.size + 1, data := s.data.take (s.size + 1) }
  else s

/-- ext_str_reserve from ext_string.c: realloc up to `amount + 1` bytes when
the capacity is smaller, preserving the content. -/
def ext_str_reserve (s : ExtString) (amount : Nat) : ExtString :=
  if amount + 1 > s.capacity then
    { s with capacity := amount + 1,
             data := s.data ++ List.replicate (amount + 1 - s.capacity) none }
  else s

/-- ext_str_resize (from the repository's bundled extlib.h variant):
`ext_str_maybe_grow(str, new_size); set_size(new_size); str[new_size] = 0`.
New bytes below `new_size` are left uninitialized. -/
def ext_str_resize (s : ExtString) (new_size : Nat) : ExtString :=
  let s1 := ext_str_maybe_grow s new_size
  { s1 with size := new_size, data := s1.data.set new_size (some 0) }

/-- NUL invariant of a growable string, from the spec: the byte at index
`size` is a written 0, and the capacity reserves at least one byte beyond
`size` for it (the buffer length equalling the capacity ties the model's
list to the allocation size). -/
def str_nul_ok (s : ExtString) : Prop :=
  s.data.getD s.size none = some 0 ∧ s.size + 1 ≤ s.capacity
    ∧ s.data.length = s.capacity

/-- ext_str_npos from ext_string.h: `(size_t)-1`, the maximum representable
`size_t` value, the "not found" sentinel. -/
def ext_str_npos : Nat := 18446744073709551615

/-- Search functions read only the byte content `[0, size)` of a string, so
they are embedded as functions of the byte list `s` with `s.length = size`.
`occurs_at s needle i` is `memcmp(str + i, needle, len) == 0` (the scans
below only evaluate it where `i + len` stays within the read bytes). -/
def occurs_at (s needle : List Nat) (i : Nat) : Prop :=
  (s.drop i).take needle.length = needle

/-- Boolean form of `occurs_at` used by the scan loops. -/
def match_bytes (s needle : List Nat) (i : Nat) : Bool :=
  (s.drop i).take needle.length == needle

/-- Forward scan of ext_str_find_len:
`for (i = start_pos; i <= stop; i++) if (memcmp(...) == 0) return i`, with
`stop = size - len`. `fuel = stop + 2` iterations always cover the loop. -/
def find_scan (s needle : List Nat) (stop : Nat) : Nat → Nat → Nat
  | 0, _ => ext_str_npos
  | fuel + 1, i =>
    if i ≤ stop then
      if match_bytes s needle i then i else find_scan s needle stop fuel (i + 1)
    else ext_str_npos

/-- ext_str_find_len from ext_string.c. -/
def ext_str_find_len (s : List Nat) (start_pos : Nat) (needle : List Nat) : Nat :=
  if s.length < needle.length then ext_str_npos
  else find_scan s needle (s.length - needle.length)
    (s.length - needle.length + 2) start_pos

/-- Backward scan of ext_str_rfind_len:
`for (i = i0; i != npos; i--) if (memcmp(...) == 0) return i` — the loop
exits when the `size_t` decrement of 0 wraps to npos. -/
def rfind_scan (s needle : List Nat) : Nat → Nat
  | 0 => if match_bytes s needle 0 then 0 else ext_str_npos
  | i + 1 => if match_bytes s needle (i + 1) then i + 1 else rfind_scan s needle i

/-- Start index of the backward scan, `size - start_pos - 1` computed in
`size_t` arithmetic after the clamp `if (start_pos <= len) start_pos = len - 1`
(which wraps to npos when `len == 0`). -/
def rfind_scan_start (s needle : List Nat) (start_pos : Nat) : Nat :=
  let sp := if start_pos ≤ needle.length then u64 (needle.length + ext_str_npos)
            else start_pos
  u64 (s.length + 18446744073709551616 - u64 (sp + 1))

/-- ext_str_rfind_len from ext_string.c. -/
def ext_str_rfind_len (s : List Nat) (start_pos : Nat) (needle : List Nat) : Nat :=
  if s.length < needle.length then ext_str_npos
  else if start_pos ≥ s.length then ext_str_npos
  else
    let i0 := rfind_scan_start s needle start_pos
    if i0 = ext_str_npos then ext_str_npos else rfind_scan s needle i0

/-- Loop body of ext_str_split: scan position `i` (with `fuel` positions left
to visit, i.e. `i + fuel = size`), `last` the start of the current token;
each separator byte emits the token `[last, i)` (a fresh ext_str_new_len
copy, here the byte list), and after the loop the final token `[last, size)`
is emitted. -/
def split_go (s : List Nat) (sep : Nat) : Nat → Nat → Nat → List (List Nat) → List (List Nat)
  | 0, _, last, toks => toks ++ [(s.drop last).take (s.length - last)]
  | fuel + 1, i, last, toks =>
    if s.getD i 0 == sep then
      split_go s sep fuel (i + 1) (i + 1) (toks ++ [(s.drop last).take (i - last)])
    else
      split_go s sep fuel (i + 1) last toks

/-- ext_str_split from ext_string.c: split the byte content of `str` at the
separator byte, returning the token list in order. -/
def ext_str_split (s : List Nat) (sep : Nat) : List (List Nat) :=
  split_go s sep s.length 0 0 []

/-- Recursive reference form of the split (spec side): accumulate the
pending separator-free run, emit it at each separator and at the end. -/
def split_list (sep : Nat) (pending : List Nat) : List Nat → List (List Nat)
  | [] => [pending]
  | b :: rest =>
    if b == sep then pending :: split_list sep [] rest
    else split_list sep (pending ++ [b]) rest

/-- Interleaving a token list with the separator byte (spec side): the
reconstruction used to state that a split loses no bytes. -/
def rejoin (sep : Nat) : List (List Nat) → List Nat
  | [] => []
  | [t] => t
  | t :: t2 :: ts => t ++ sep :: rejoin sep (t2 :: ts)

/-- C1: the claim states that every live entry present before a growth stays
retrievable via get afterward with unchanged payload. The code's map_grow
copies each live slot directly to `cached_hash & (new_cap - 1)` without any
collision probing, so two live entries whose cached hashes are congruent
modulo the new capacity overwrite each other and one record is silently
lost. Concretely: after six puts the record `(2, 100)` is live and
retrievable in the capacity-8 table; the seventh put doubles the capacity to
16, the rehash writes record `(18, 200)` (cached hash 18) over record
`(2, 100)` (cached hash 2) at new index `18 &&& 15 = 2 &&& 15 = 2`, and get
of key 2 then returns NULL even though key 2 was inserted and never
erased. -/
theorem map_grow_loses_colliding_entry :
    (run_puts pair_map c1_records).map (fun m => ext_map_get m (2, 0)) =
        some (some (some (2, 100)))
    ∧ (run_puts pair_map c1_records).map ext_map_capacity = some 8
    ∧ (run_puts pair_map (c1_records ++ [(8, 7)])).map ext_map_capacity = some 16
    ∧ (run_puts pair_map (c1_records ++ [(8, 7)])).map (fun m => ext_map_get m (2, 0)) =
        some (some none)
    ∧ (run_puts pair_map (c1_records ++ [(8, 7)])).map (fun m => ext_map_get m (18, 0)) =
        some (some (some (18, 200))) := by
  decide

/-- C2 counterexample: the claim states that it is exactly the 8th put call
that performs the 8-to-16 growth. In the code the growth check
`occupied + 1 > 75% of capacity` runs before the insertion, and
`occupied + 1 = 7 > 6` already holds at the 7th put: after 6 puts the
capacity is still 8, after the 7th put it is already 16, and the 8th put
leaves it at 16 — so the growth is performed by the 7th put, not the 8th. -/
theorem growth_not_at_eighth_put :
    (run_puts pair_map (c2_records.take 6)).map ext_map_capacity = some 8
    ∧ (run_puts pair_map (c2_records.take 7)).map ext_map_capacity = some 16
    ∧ (run_puts pair_map c2_records).map ext_map_capacity = some 16 := by
  decide

/-- C2 (amended): inserting 8 records with pairwise distinct keys (whose
remapped hashes are pairwise distinct modulo 16) one at a time into an
initially empty table doubles the capacity from 8 to 16, and it is exactly
the 7th put call that performs this growth (occupied + 1 exceeding 75% of
8 = 6 first happens there, the check running before the insertion
completes); afterwards all 8 keys are retrievable with their full record
payloads and the live count is 8. -/
theorem eighth_record_scenario_grows_at_seventh_put :
    (run_puts pair_map (c2_records.take 6)).map ext_map_capacity = some 8
    ∧ (run_puts pair_map (c2_records.take 7)).map ext_map_capacity = some 16
    ∧ (run_puts pair_map c2_records).map ext_map_capacity = some 16
    ∧ (run_puts pair_map c2_records).map ext_map_size = some 8
    ∧ (run_puts pair_map c2_records).map
        (fun m => c2_records.map (fun r => ext_map_get m (r.1, 0))) =
        some (c2_records.map (fun r => some (some r))) := by
  decide

theorem find_index_aux_step_empty (m : ExtMap α) (a : α) (hash idx : Nat)
    (tomb : Option Nat) (fuel : Nat) (h : bucket_at m idx = EMPTY_MARK) :
    find_index_aux m a hash idx tomb (fuel + 1) = some (tomb.getD idx) := by
  simp [find_index_aux, is_valid_mark, h, EMPTY_MARK, TOMB_MARK]

theorem find_index_aux_step_tomb (m : ExtMap α) (a : α) (hash idx : Nat)
    (tomb : Option Nat) (fuel : Nat) (h : bucket_at m idx = TOMB_MARK) :
    find_index_aux m a hash idx tomb (fuel + 1) =
      find_index_aux m a hash ((idx + 1) &&& m.capacity_mask)
        (if tomb.isSome then tomb else some idx) fuel := by
  simp [find_index_aux, is_valid_mark, h, EMPTY_MARK, TOMB_MARK]

theorem find_index_aux_step_hit (m : ExtMap α) (a : α) (hash idx : Nat)
    (tomb : Option Nat) (fuel : Nat) (hv : is_valid_mark (bucket_at m idx))
    (hm : (bucket_at m idx == hash && m.compare (entry_at m idx) a) = true) :
    find_index_aux m a hash idx tomb (fuel + 1) = some idx := by
  simp [find_index_aux, hv, hm]

theorem find_index_aux_step_miss (m : ExtMap α) (a : α) (hash idx : Nat)
    (tomb : Option Nat) (fuel : Nat) (hv : is_valid_mark (bucket_at m idx))
    (hm : (bucket_at m idx == hash && m.compare (entry_at m idx) a) = false) :
    find_index_aux m a hash idx tomb (fuel + 1) =
      find_index_aux m a hash ((idx + 1) &&& m.capacity_mask) tomb fuel := by
  simp [find_index_aux, hv, hm]

theorem find_index_aux_resolution (m : ExtMap α) (a : α) (hash k : Nat)
    (hk : m.capacity_mask + 1 = 2 ^ k) :
    ∀ fuel idx tomb e,
      idx < m.capacity_mask + 1 →
      e < fuel →
      empty_at m ((idx + e) % (m.capacity_mask + 1)) →
      (∀ j, j < e → ¬ empty_at m ((idx + j) % (m.capacity_mask + 1))) →
      ∃ r, find_index_aux m a hash idx tomb fuel = some r ∧
        ((∃ jm, jm < e ∧ match_at m a hash ((idx + jm) % (m.capacity_mask + 1))
            ∧ (∀ j, j < jm → ¬ match_at m a hash ((idx + j) % (m.capacity_mask + 1)))
            ∧ r = (idx + jm) % (m.capacity_mask + 1))
         ∨ ((∀ j, j < e → ¬ match_at m a hash ((idx + j) % (m.capacity_mask + 1)))
            ∧ ((∃ t, tomb = some t ∧ r = t)
               ∨ (tomb = none
                  ∧ ((∃ jt, jt < e ∧ tomb_at m ((idx + jt) % (m.capacity_mask + 1))
                        ∧ (∀ j, j < jt → ¬ tomb_at m ((idx + j) % (m.capacity_mask + 1)))
                        ∧ r = (idx + jt) % (m.capacity_mask + 1))
                     ∨ ((∀ j, j < e → ¬ tomb_at m ((idx + j) % (m.capacity_mask + 1)))
                        ∧ r = (idx + e) % (m.capacity_mask + 1))))))) := by
  intro fuel
  induction fuel with
  | zero => intro idx tomb e _ he _ _; omega
  | succ fuel ih =>
    intro idx tomb e hidx he hemp hmin
    have hcappos : 0 < m.capacity_mask + 1 := Nat.succ_pos _
    have hidx0 : (idx + 0) % (m.capacity_mask + 1) = idx := by
      simpa using Nat.mod_eq_of_lt hidx
    have hand : (idx + 1) &&& m.capacity_mask = (idx + 1) % (m.capacity_mask + 1) := by
      have hm1 : m.capacity_mask = 2 ^ k - 1 := by omega
      conv_lhs => rw [hm1]
      rw [Nat.and_pow_two_sub_one_eq_mod, ← hk]
    have hshift : ∀ j, ((idx + 1) % (m.capacity_mask + 1) + j) % (m.capacity_mask + 1)
        = (idx + (j + 1)) % (m.capacity_mask + 1) := by
      intro j
      rw [Nat.mod_add_mod]
      have : idx + 1 + j = idx + (j + 1) := by omega
      rw [this]
    have hidx1 : (idx + 1) % (m.capacity_mask + 1) < m.capacity_mask + 1 :=
      Nat.mod_lt _ hcappos
    by_cases hbe : bucket_at m idx = EMPTY_MARK
    · -- EMPTY slot at the current index: the first empty position is 0.
      have he0 : e = 0 := by
        by_contra h0
        have hne := hmin 0 (by omega)
        rw [hidx0] at hne
        exact hne (by simp [empty_at, hbe])
      subst he0
      refine ⟨tomb.getD idx, find_index_aux_step_empty m a hash idx tomb fuel hbe,
        Or.inr ⟨fun j hj => by omega, ?_⟩⟩
      cases tomb with
      | some t => exact Or.inl ⟨t, rfl, rfl⟩
      | none =>
        exact Or.inr ⟨rfl, Or.inr ⟨fun j hj => by omega, by
          rw [Option.getD_none]; exact hidx0.symm⟩⟩
    · have hepos : 0 < e := by
        rcases Nat.eq_zero_or_pos e with h0 | h
        · exfalso; rw [h0, hidx0] at hemp; exact hbe (by simpa [empty_at] using hemp)
        · exact h
      by_cases hbt : bucket_at m idx = TOMB_MARK
      · -- TOMBSTONE at the current index: record it (if first) and continue.
        have hstep := find_index_aux_step_tomb m a hash idx tomb fuel hbt
        rw [hand] at hstep
        obtain ⟨r, hr, hchar⟩ :=
          ih ((idx + 1) % (m.capacity_mask + 1)) (if tomb.isSome then tomb else some idx)
            (e - 1) hidx1 (by omega)
            (by rw [hshift]; have : e - 1 + 1 = e := by omega
                rw [this]; exact hemp)
            (by intro j hj
                rw [hshift]
                exact hmin (j + 1) (by omega))
        refine ⟨r, by rw [hstep]; exact hr, ?_⟩
        have hnm0 : ¬ match_at m a hash ((idx + 0) % (m.capacity_mask + 1)) := by
          rw [hidx0]
          simp [match_at, is_valid_mark, hbt, TOMB_MARK]
        have hnt_shift : ∀ j, j < e - 1 →
            ((idx + 1) % (m.capacity_mask + 1) + j) % (m.capacity_mask + 1)
              = (idx + (j + 1)) % (m.capacity_mask + 1) := fun j _ => hshift j
        rcases hchar with ⟨jm, hjm, hmatch, hminm, hreq⟩ | ⟨hnomatch, hsub⟩
        · refine Or.inl ⟨jm + 1, by omega, ?_, ?_, ?_⟩
          · rw [← hshift]; exact hmatch
          · intro j hj
            cases j with
            | zero => exact hnm0
            | succ j' => rw [← hshift]; exact hminm j' (by omega)
          · rw [← hshift]; exact hreq
        · have hnomatch' : ∀ j, j < e → ¬ match_at m a hash ((idx + j) % (m.capacity_mask + 1)) := by
            intro j hj
            cases j with
            | zero => exact hnm0
            | succ j' => rw [← hshift]; exact hnomatch j' (by omega)
          refine Or.inr ⟨hnomatch', ?_⟩
          cases htomb : tomb with
          | some t0 =>
            rcases hsub with ⟨t, hteq, hrt⟩ | ⟨hnone, _⟩
            · rw [htomb] at hteq
              simp at hteq
              exact Or.inl ⟨t0, rfl, by rw [hrt, ← hteq]⟩
            · rw [htomb] at hnone; simp at hnone
          | none =>
            rcases hsub with ⟨t, hteq, hrt⟩ | ⟨hnone, _⟩
            · rw [htomb] at hteq
              simp at hteq
              refine Or.inr ⟨rfl, Or.inl ⟨0, hepos, ?_, fun j hj => by omega, ?_⟩⟩
              · rw [hidx0]; simp [tomb_at, hbt]
              · rw [hidx0, hrt, hteq]
            · rw [htomb] at hnone; simp at hnone
      · -- Live slot at the current index.
        have hv : is_valid_mark (bucket_at m idx) = true := by
          simp only [is_valid_mark, EMPTY_MARK, TOMB_MARK, Bool.and_eq_true,
            Bool.not_eq_eq_eq_not, Bool.not_true, beq_eq_false_iff_ne, ne_eq]
          exact ⟨hbe, hbt⟩
        cases hmatch : (bucket_at m idx == hash && m.compare (entry_at m idx) a) with
        | true =>
          refine ⟨idx, find_index_aux_step_hit m a hash idx tomb fuel hv hmatch,
            Or.inl ⟨0, hepos, ?_, fun j hj => by omega, hidx0.symm⟩⟩
          rw [hidx0]
          simp only [match_at, hv, Bool.true_and]
          exact hmatch
        | false =>
          have hstep := find_index_aux_step_miss m a hash idx tomb fuel hv hmatch
          rw [hand] at hstep
          obtain ⟨r, hr, hchar⟩ :=
            ih ((idx + 1) % (m.capacity_mask + 1)) tomb (e - 1) hidx1 (by omega)
              (by rw [hshift]; have : e - 1 + 1 = e := by omega
                  rw [this]; exact hemp)
              (by intro j hj
                  rw [hshift]
                  exact hmin (j + 1) (by omega))
          refine ⟨r, by rw [hstep]; exact hr, ?_⟩
          have hnm0 : ¬ match_at m a hash ((idx + 0) % (m.capacity_mask + 1)) := by
            rw [hidx0]
            simp only [match_at, hv, Bool.true_and]
            simp [hmatch]
          have hnt0 : ¬ tomb_at m ((idx + 0) % (m.capacity_mask + 1)) := by
            rw [hidx0]; simp [tomb_at, hbt]
          rcases hchar with ⟨jm, hjm, hmatchm, hminm, hreq⟩ | ⟨hnomatch, hsub⟩
          · refine Or.inl ⟨jm + 1, by omega, ?_, ?_, ?_⟩
            · rw [← hshift]; exact hmatchm
            · intro j hj
              cases j with
              | zero => exact hnm0
              | succ j' => rw [← hshift]; exact hminm j' (by omega)
            · rw [← hshift]; exact hreq
          · have hnomatch' : ∀ j, j < e →
                ¬ match_at m a hash ((idx + j) % (m.capacity_mask + 1)) := by
              intro j hj
              cases j with
              | zero => exact hnm0
              | succ j' => rw [← hshift]; exact hnomatch j' (by omega)
            refine Or.inr ⟨hnomatch', ?_⟩
            rcases hsub with h | ⟨hnone, hrest⟩
            · exact Or.inl h
            · refine Or.inr ⟨hnone, ?_⟩
              rcases hrest with ⟨jt, hjt, htomb, hmint, hreq⟩ | ⟨hnotomb, hreq⟩
              · refine Or.inl ⟨jt + 1, by omega, ?_, ?_, ?_⟩
                · rw [← hshift]; exact htomb
                · intro j hj
                  cases j with
                  | zero => exact hnt0
                  | succ j' => rw [← hshift]; exact hmint j' (by omega)
                · rw [← hshift]; exact hreq
              · refine Or.inr ⟨?_, ?_⟩
                · intro j hj
                  cases j with
                  | zero => exact hnt0
                  | succ j' => rw [← hshift]; exact hnotomb j' (by omega)
                · rw [hreq, hshift]
                  have : e - 1 + 1 = e := by omega
                  rw [this]

/-- C3: for every table state with power-of-two capacity, a metadata array of
matching length, consistent bucket metadata (every live slot caches the
remapped hash of its stored record) and at least one EMPTY slot, find_index
terminates and returns: the index of the first slot on the probe path (from
`hash & capacity_mask`, stepping by `(idx+1) & capacity_mask`) whose cached
hash equals the probe hash and whose record satisfies the equals callback,
if such a slot occurs before the first EMPTY slot; otherwise the first
TOMBSTONE seen during the scan if any; otherwise the terminating EMPTY slot.
Tombstones are passed through and never terminate the scan. -/
theorem find_index_resolves_probe (m : ExtMap α) (a : α) (hash : Nat)
    (hpow : ∃ k, m.capacity_mask + 1 = 2 ^ k)
    (hlen : m.buckets.length = m.capacity_mask + 1)
    (hcons : hashes_consistent m)
    (hemp : ∃ i, i < m.capacity_mask + 1 ∧ empty_at m i) :
    ∃ r, find_index m a hash = some r ∧ probe_resolution m a hash r := by
  obtain ⟨k, hk⟩ := hpow
  obtain ⟨i, hi, hie⟩ := hemp
  have hcappos : 0 < m.capacity_mask + 1 := Nat.succ_pos _
  have hand0 : hash &&& m.capacity_mask = hash % (m.capacity_mask + 1) := by
    have hm1 : m.capacity_mask = 2 ^ k - 1 := by omega
    conv_lhs => rw [hm1]
    rw [Nat.and_pow_two_sub_one_eq_mod, ← hk]
  have hstart : hash % (m.capacity_mask + 1) < m.capacity_mask + 1 :=
    Nat.mod_lt _ hcappos
  have key : ∃ j0, j0 < m.capacity_mask + 1 ∧
      empty_at m ((hash % (m.capacity_mask + 1) + j0) % (m.capacity_mask + 1)) = true := by
    by_cases hle : hash % (m.capacity_mask + 1) ≤ i
    · refine ⟨i - hash % (m.capacity_mask + 1), by omega, ?_⟩
      have h2 : hash % (m.capacity_mask + 1) + (i - hash % (m.capacity_mask + 1)) = i := by
        omega
      rw [h2, Nat.mod_eq_of_lt hi]
      exact hie
    · refine ⟨m.capacity_mask + 1 + i - hash % (m.capacity_mask + 1), by omega, ?_⟩
      have h2 : hash % (m.capacity_mask + 1)
          + (m.capacity_mask + 1 + i - hash % (m.capacity_mask + 1))
          = m.capacity_mask + 1 + i := by omega
      rw [h2, Nat.add_mod_left, Nat.mod_eq_of_lt hi]
      exact hie
  classical
  obtain ⟨j0, hj0lt, hj0emp⟩ := key
  have hex : ∃ j, empty_at m
      ((hash % (m.capacity_mask + 1) + j) % (m.capacity_mask + 1)) = true := ⟨j0, hj0emp⟩
  have hfle : Nat.find hex ≤ j0 := Nat.find_min' hex hj0emp
  obtain ⟨r, hr, hchar⟩ :=
    find_index_aux_resolution m a hash k hk (m.capacity_mask + 1)
      (hash % (m.capacity_mask + 1)) none (Nat.find hex) hstart (by omega)
      (Nat.find_spec hex) (fun j hj => Nat.find_min hex hj)
  refine ⟨r, by rw [find_index, hand0]; exact hr,
    Nat.find hex, by omega, Nat.find_spec hex, fun j hj => Nat.find_min hex hj, ?_⟩
  simp only [probe_slot]
  rcases hchar with h | ⟨hnm, hsub⟩
  · exact Or.inl h
  · refine Or.inr ⟨hnm, ?_⟩
    rcases hsub with ⟨t, ht, _⟩ | ⟨_, hrest⟩
    · cases ht
    · exact hrest

/-- C3 witness: the probe-resolution theorem applied to a concrete table in
which the probe for record 11 starts at the tombstone in slot 3 and passes
through it to the live match in slot 4. -/
theorem find_index_resolves_probe_witness :
    ∃ r, find_index probe_witness_map 11 11 = some r
      ∧ probe_resolution probe_witness_map 11 11 r :=
  find_index_resolves_probe probe_witness_map 11 11 ⟨3, rfl⟩ (by decide)
    (by unfold hashes_consistent; decide) ⟨0, by decide⟩


theorem getD_set_self {β : Type} :
    ∀ (l : List β) (i : Nat) (x d : β), i < l.length → (l.set i x).getD i d = x := by
  intro l
  induction l with
  | nil => intro i x d h; simp at h
  | cons a l ih =>
    intro i x d h
    cases i with
    | zero => rfl
    | succ i => exact ih i x d (by simpa using h)

theorem find_index_aux_le (m : ExtMap α) (a : α) (hash : Nat) :
    ∀ fuel idx tomb r, idx ≤ m.capacity_mask →
      (∀ t, tomb = some t → t ≤ m.capacity_mask) →
      find_index_aux m a hash idx tomb fuel = some r → r ≤ m.capacity_mask := by
  intro fuel
  induction fuel with
  | zero => intro idx tomb r _ _ h; simp [find_index_aux] at h
  | succ fuel ih =>
    intro idx tomb r hidx htomb h
    by_cases hbe : bucket_at m idx = EMPTY_MARK
    · rw [find_index_aux_step_empty m a hash idx tomb fuel hbe] at h
      injection h with h
      cases tomb with
      | none => rw [← h]; simpa using hidx
      | some t => rw [← h]; simpa using htomb t rfl
    · by_cases hbt : bucket_at m idx = TOMB_MARK
      · rw [find_index_aux_step_tomb m a hash idx tomb fuel hbt] at h
        refine ih _ _ r Nat.and_le_right ?_ h
        intro t ht
        cases tomb with
        | some t0 =>
          simp only [Option.isSome_some, if_true] at ht
          exact htomb t ht
        | none =>
          simp only [Option.isSome_none, Bool.false_eq_true, if_false,
            Option.some.injEq] at ht
          rw [← ht]; exact hidx
      · have hv : is_valid_mark (bucket_at m idx) = true := by
          simp only [is_valid_mark, EMPTY_MARK, TOMB_MARK, Bool.and_eq_true,
            Bool.not_eq_eq_eq_not, Bool.not_true, beq_eq_false_iff_ne, ne_eq]
          exact ⟨hbe, hbt⟩
        cases hmatch : (bucket_at m idx == hash && m.compare (entry_at m idx) a) with
        | true =>
          rw [find_index_aux_step_hit m a hash idx tomb fuel hv hmatch] at h
          injection h with h
          rw [← h]; exact hidx
        | false =>
          rw [find_index_aux_step_miss m a hash idx tomb fuel hv hmatch] at h
          exact ih _ _ r Nat.and_le_right htomb h

theorem find_index_le (m : ExtMap α) (a : α) (hash r : Nat)
    (h : find_index m a hash = some r) : r ≤ m.capacity_mask :=
  find_index_aux_le m a hash (m.capacity_mask + 1) (hash &&& m.capacity_mask) none r
    Nat.and_le_right (fun t ht => by cases ht) h

theorem map_grow_size (m : ExtMap α) : (map_grow m).size = m.size := by
  rw [map_grow]
  split <;> rfl

theorem put_pre_size (m : ExtMap α) : (put_pre m).size = m.size := by
  rw [put_pre]
  split
  · exact map_grow_size m
  · rfl

/-- C4: for every put call, with `m1` the table state after the conditional
growth at the top of ext_map_put (`put_pre m`) and `idx` the slot the probe
resolves: if the resolved slot was not live, put returns `true`, the live
count `size` grows by exactly 1 (relative to the original call, since growth
never changes `size`), and `num_entries` (occupied) is incremented relative
to `m1` only if the slot was strictly EMPTY — reusing a TOMBSTONE leaves it
unchanged; if the resolved slot was live, put returns `false` and both
counters are unchanged. In every case the cached hash and the full record
bytes are written into the resolved slot. -/
theorem ext_map_put_state (m : ExtMap α) (a : α) (idx : Nat)
    (hb : (put_pre m).buckets.length = (put_pre m).capacity_mask + 1)
    (he : (put_pre m).entries.length = (put_pre m).capacity_mask + 1)
    (hfind : find_index (put_pre m) a (hash_entry (put_pre m) a) = some idx)
    (hsz : m.size + 1 < 18446744073709551616)
    (hne : (put_pre m).num_entries + 1 < 18446744073709551616) :
    ∃ mf, ext_map_put m a = some (!(is_valid_mark (bucket_at (put_pre m) idx)), mf)
      ∧ mf.size = (if is_valid_mark (bucket_at (put_pre m) idx) then m.size else m.size + 1)
      ∧ mf.num_entries = (if bucket_at (put_pre m) idx == EMPTY_MARK
          then (put_pre m).num_entries + 1 else (put_pre m).num_entries)
      ∧ bucket_at mf idx = hash_entry (put_pre m) a
      ∧ entry_at mf idx = a := by
  have hle := find_index_le (put_pre m) a (hash_entry (put_pre m) a) idx hfind
  have hblen : idx < (put_pre m).buckets.length := by omega
  have helen : idx < (put_pre m).entries.length := by omega
  rw [ext_map_put, hfind]
  dsimp only
  cases hv : is_valid_mark (bucket_at (put_pre m) idx) with
  | true =>
    have hnotempty : (bucket_at (put_pre m) idx == EMPTY_MARK) = false := by
      simp only [is_valid_mark, Bool.and_eq_true, Bool.not_eq_eq_eq_not,
        Bool.not_true, beq_eq_false_iff_ne, ne_eq] at hv
      simp only [beq_eq_false_iff_ne, ne_eq]
      exact hv.1
    refine ⟨_, rfl, ?_, ?_, ?_, ?_⟩
    · simp only [Bool.not_true, Bool.false_eq_true, if_false, if_true]
      exact put_pre_size m
    · simp only [Bool.not_true, Bool.false_eq_true, if_false, hnotempty]
    · simp only [Bool.not_true, Bool.false_eq_true, if_false]
      exact getD_set_self _ idx _ _ hblen
    · simp only [Bool.not_true, Bool.false_eq_true, if_false]
      exact getD_set_self _ idx _ _ helen
  | false =>
    refine ⟨_, rfl, ?_, ?_, ?_, ?_⟩
    · simp only [Bool.not_false, Bool.false_eq_true, if_true, if_false]
      show u64 ((put_pre m).size + 1) = m.size + 1
      rw [put_pre_size m, u64]
      omega
    · simp only [Bool.not_false, if_true]
      cases hemp : (bucket_at (put_pre m) idx == EMPTY_MARK) with
      | true =>
        simp only [if_true]
        show u64 ((put_pre m).num_entries + 1) = (put_pre m).num_entries + 1
        rw [u64]
        omega
      | false => simp only [Bool.false_eq_true, if_false]
    · simp only [Bool.not_false, if_true]
      exact getD_set_self _ idx _ _ hblen
    · simp only [Bool.not_false, if_true]
      exact getD_set_self _ idx _ _ helen

/-- C4 witness: putting record 19 into the concrete witness table resolves
to the tombstone slot 3 (reuse): put returns true, `size` grows by 1,
`num_entries` stays unchanged, and the slot receives hash and record. -/
theorem ext_map_put_state_witness :
    ∃ mf, ext_map_put probe_witness_map 19
        = some (!(is_valid_mark (bucket_at (put_pre probe_witness_map) 3)), mf)
      ∧ mf.size = (if is_valid_mark (bucket_at (put_pre probe_witness_map) 3)
          then probe_witness_map.size else probe_witness_map.size + 1)
      ∧ mf.num_entries = (if bucket_at (put_pre probe_witness_map) 3 == EMPTY_MARK
          then (put_pre probe_witness_map).num_entries + 1
          else (put_pre probe_witness_map).num_entries)
      ∧ bucket_at mf 3 = hash_entry (put_pre probe_witness_map) 19
      ∧ entry_at mf 3 = 19 :=
  ext_map_put_state probe_witness_map 19 3 (by decide) (by decide) (by decide)
    (by decide) (by decide)

/-- C5: for every erase call resolving to slot `idx`: if the slot is live,
erase returns true, the slot metadata becomes the TOMBSTONE sentinel (which
differs from EMPTY), the live count `size` drops by exactly 1, while
`num_entries` (occupied), the capacity and the whole entry array are
unchanged; if it is not live, erase returns false with the entire table
state unchanged — a missing key is an ordinary non-fatal outcome signalled
by the boolean result, not an abort. -/
theorem ext_map_erase_state (m : ExtMap α) (a : α) (idx : Nat)
    (hb : m.buckets.length = m.capacity_mask + 1)
    (hfind : find_index m a (hash_entry m a) = some idx)
    (hsz : 1 ≤ m.size ∧ m.size < 18446744073709551616) :
    (is_valid_mark (bucket_at m idx) = true →
      ∃ mf, ext_map_erase m a = some (true, mf)
        ∧ bucket_at mf idx = TOMB_MARK
        ∧ TOMB_MARK ≠ EMPTY_MARK
        ∧ mf.size = m.size - 1
        ∧ mf.num_entries = m.num_entries
        ∧ mf.capacity_mask = m.capacity_mask
        ∧ mf.entries = m.entries)
    ∧ (is_valid_mark (bucket_at m idx) = false →
        ext_map_erase m a = some (false, m)) := by
  have hle := find_index_le m a (hash_entry m a) idx hfind
  have hblen : idx < m.buckets.length := by omega
  constructor
  · intro hv
    rw [ext_map_erase, hfind]
    simp only [hv, if_true]
    refine ⟨_, rfl, ?_, by decide, ?_, rfl, rfl, rfl⟩
    · exact getD_set_self _ idx _ _ hblen
    · show u64 (m.size + 18446744073709551615) = m.size - 1
      rw [u64]
      omega
  · intro hv
    rw [ext_map_erase, hfind]
    simp only [hv, Bool.false_eq_true, if_false]

/-- C5 witness: erasing record 11 from the concrete witness table resolves
to the live slot 4; the state deltas of the theorem hold there. -/
theorem ext_map_erase_state_witness :
    (is_valid_mark (bucket_at probe_witness_map 4) = true →
      ∃ mf, ext_map_erase probe_witness_map 11 = some (true, mf)
        ∧ bucket_at mf 4 = TOMB_MARK
        ∧ TOMB_MARK ≠ EMPTY_MARK
        ∧ mf.size = probe_witness_map.size - 1
        ∧ mf.num_entries = probe_witness_map.num_entries
        ∧ mf.capacity_mask = probe_witness_map.capacity_mask
        ∧ mf.entries = probe_witness_map.entries)
    ∧ (is_valid_mark (bucket_at probe_witness_map 4) = false →
        ext_map_erase probe_witness_map 11 = some (false, probe_witness_map)) :=
  ext_map_erase_state probe_witness_map 11 4 (by decide) (by decide) (by decide)

theorem take_set_succ {β : Type} :
    ∀ (l : List β) (n : Nat) (x : β), n < l.length →
      (l.set n x).take (n + 1) = l.take n ++ [x] := by
  intro l
  induction l with
  | nil => intro n x h; simp at h
  | cons a l ih =>
    intro n x h
    cases n with
    | zero => simp
    | succ n =>
      simp only [List.set_cons_succ, List.take_succ_cons, List.cons_append]
      rw [ih n x (by simpa using h)]

theorem getD_take {β : Type} :
    ∀ (l : List β) (n i : Nat) (d : β), i < n → (l.take n).getD i d = l.getD i d := by
  intro l
  induction l with
  | nil => intro n i d _; simp
  | cons a l ih =>
    intro n i d h
    cases n with
    | zero => omega
    | succ n =>
      cases i with
      | zero => rfl
      | succ i =>
        simp only [List.take_succ_cons, List.getD_cons_succ]
        exact ih n i d (by omega)

theorem vec_grow_cap_ge (need : Nat) :
    ∀ fuel cap, 1 ≤ cap → need ≤ cap + fuel → need ≤ vec_grow_cap need cap fuel := by
  intro fuel
  induction fuel with
  | zero => intro cap _ h2; rw [vec_grow_cap]; omega
  | succ fuel ih =>
    intro cap h1 h2
    rw [vec_grow_cap]
    split
    · exact ih (cap * 2) (by omega) (by omega)
    · omega

theorem ext_vec_reserve_spec {β : Type} (v : ExtVec β) (amount : Nat)
    (hlen : v.data.length = v.capacity) :
    (ext_vec_reserve v amount).size = v.size
    ∧ v.capacity ≤ (ext_vec_reserve v amount).capacity
    ∧ amount ≤ (ext_vec_reserve v amount).capacity
    ∧ (ext_vec_reserve v amount).data.length = (ext_vec_reserve v amount).capacity
    ∧ ∀ n, n ≤ v.capacity →
        (ext_vec_reserve v amount).data.take n = v.data.take n := by
  rw [ext_vec_reserve]
  split
  · refine ⟨rfl, by dsimp only; omega, by dsimp only; omega, ?_, ?_⟩
    · simp [hlen]
      omega
    · intro n hn
      exact List.take_append_of_le_length (by omega)
  · exact ⟨rfl, le_refl _, by omega, hlen, fun n _ => rfl⟩

theorem ext_vec_maybe_grow_spec {β : Type} (v : ExtVec β) (amount : Nat)
    (hlen : v.data.length = v.capacity) :
    (ext_vec_maybe_grow v amount).size = v.size
    ∧ v.size + amount ≤ (ext_vec_maybe_grow v amount).capacity
    ∧ (ext_vec_maybe_grow v amount).data.length = (ext_vec_maybe_grow v amount).capacity
    ∧ ∀ n, n ≤ v.capacity →
        (ext_vec_maybe_grow v amount).data.take n = v.data.take n := by
  rw [ext_vec_maybe_grow]
  split
  · have hge : v.size + amount ≤ vec_grow_cap (v.size + amount)
        (if v.capacity = 0 then 1 else v.capacity * 2) (v.size + amount) := by
      apply vec_grow_cap_ge
      · split <;> omega
      · split <;> omega
    obtain ⟨h1, h2, h3, h4, h5⟩ := ext_vec_reserve_spec v
      (vec_grow_cap (v.size + amount)
        (if v.capacity = 0 then 1 else v.capacity * 2) (v.size + amount)) hlen
    exact ⟨h1, by omega, h4, h5⟩
  · exact ⟨rfl, by omega, hlen, fun n _ => rfl⟩

theorem run_vec_ops_invariant {β : Type} :
    ∀ (ops : List (VecOp β)) (v : ExtVec β) (model : List β),
      v.size = model.length → v.size ≤ v.capacity →
      v.data.length = v.capacity → v.data.take v.size = model.map some →
      pops_valid model.length ops = true →
      (run_vec_ops v ops).size = (stack_run model ops).length
      ∧ (run_vec_ops v ops).size ≤ (run_vec_ops v ops).capacity
      ∧ (run_vec_ops v ops).data.length = (run_vec_ops v ops).capacity
      ∧ (run_vec_ops v ops).data.take (run_vec_ops v ops).size
          = (stack_run model ops).map some := by
  intro ops
  induction ops with
  | nil =>
    intro v model h1 h2 h3 h4 _
    exact ⟨h1, h2, h3, h4⟩
  | cons op rest ih =>
    intro v model h1 h2 h3 h4 h5
    cases op with
    | push e =>
      obtain ⟨g1, g2, g3, g4⟩ := ext_vec_maybe_grow_spec v 1 h3
      have hsetlen : (ext_vec_maybe_grow v 1).size < (ext_vec_maybe_grow v 1).data.length := by
        omega
      refine ih (ext_vec_push_back v e) (model ++ [e]) ?_ ?_ ?_ ?_ ?_
      · show (ext_vec_maybe_grow v 1).size + 1 = (model ++ [e]).length
        simp [g1, h1]
      · show (ext_vec_maybe_grow v 1).size + 1 ≤ (ext_vec_maybe_grow v 1).capacity
        omega
      · show ((ext_vec_maybe_grow v 1).data.set (ext_vec_maybe_grow v 1).size (some e)).length
            = (ext_vec_maybe_grow v 1).capacity
        simp [g3]
      · show ((ext_vec_maybe_grow v 1).data.set (ext_vec_maybe_grow v 1).size (some e)).take
            ((ext_vec_maybe_grow v 1).size + 1) = (model ++ [e]).map some
        rw [take_set_succ _ _ _ hsetlen, g1]
        have hpre : (ext_vec_maybe_grow v 1).data.take v.size = v.data.take v.size :=
          g4 v.size (by omega)
        rw [hpre]
        have : v.data.take v.size = model.map some := h4
        rw [this, List.map_append]
        rfl
      · show pops_valid (model ++ [e]).length rest = true
        have : (model ++ [e]).length = model.length + 1 := by simp
        rw [this]
        simpa [pops_valid] using h5
    | pop =>
      have hvalid : ¬(model.length == 0) = true ∧ pops_valid (model.length - 1) rest = true := by
        have := h5
        simp only [pops_valid, Bool.and_eq_true] at this
        exact ⟨by simpa using this.1, this.2⟩
      have hne : model.length ≠ 0 := by simpa using hvalid.1
      refine ih (ext_vec_pop_back v) model.dropLast ?_ ?_ ?_ ?_ ?_
      · show v.size - 1 = model.dropLast.length
        rw [List.length_dropLast, h1]
      · show v.size - 1 ≤ v.capacity
        omega
      · exact h3
      · show v.data.take (v.size - 1) = model.dropLast.map some
        have step1 : v.data.take (v.size - 1) = (v.data.take v.size).take (v.size - 1) := by
          rw [List.take_take]
          congr 1
          omega
        rw [step1, h4, ← List.map_take]
        congr 1
        rw [List.dropLast_eq_take, h1]
      · rw [List.length_dropLast]
        exact hvalid.2

theorem stack_run_count {β : Type} :
    ∀ (ops : List (VecOp β)) (model : List β),
      pops_valid model.length ops = true →
      (stack_run model ops).length + num_pops ops = model.length + num_pushes ops := by
  intro ops
  induction ops with
  | nil => intro model _; simp [stack_run, num_pops, num_pushes]
  | cons op rest ih =>
    intro model h5
    cases op with
    | push e =>
      have h5' : pops_valid (model ++ [e]).length rest = true := by
        have : (model ++ [e]).length = model.length + 1 := by simp
        rw [this]
        simpa [pops_valid] using h5
      have := ih (model ++ [e]) h5'
      simp only [stack_run, num_pops, num_pushes]
      simp only [List.length_append, List.length_cons, List.length_nil] at this ⊢
      omega
    | pop =>
      have hvalid : ¬(model.length == 0) = true ∧ pops_valid (model.length - 1) rest = true := by
        have := h5
        simp only [pops_valid, Bool.and_eq_true] at this
        exact ⟨by simpa using this.1, this.2⟩
      have hne : model.length ≠ 0 := by simpa using hvalid.1
      have h5' : pops_valid model.dropLast.length rest = true := by
        rw [List.length_dropLast]
        exact hvalid.2
      have := ih model.dropLast h5'
      simp only [stack_run, num_pops, num_pushes]
      rw [List.length_dropLast] at this
      omega

/-- C8: for every finite sequence of push_back/pop_back operations starting
from the empty vector, with pop_back only applied to a non-empty vector, the
final size equals the number of pushes minus the number of pops, and the
elements below the final size are exactly the pushed values that were not
subsequently popped, in insertion order (the reference stack model). -/
theorem vec_push_pop_sequences {β : Type} (ops : List (VecOp β))
    (h : pops_valid 0 ops = true) :
    (run_vec_ops (ext_vec_empty β) ops).size = num_pushes ops - num_pops ops
    ∧ num_pops ops ≤ num_pushes ops
    ∧ (run_vec_ops (ext_vec_empty β) ops).data.take (run_vec_ops (ext_vec_empty β) ops).size
        = (stack_run [] ops).map some := by
  have hinv := run_vec_ops_invariant ops (ext_vec_empty β) [] rfl (by simp [ext_vec_empty])
    rfl rfl (by simpa using h)
  have hcount := stack_run_count ops [] (by simpa using h)
  simp only [List.length_nil] at hcount
  exact ⟨by omega, by omega, hinv.2.2.2⟩

/-- C8 witness: the push/pop theorem applied to the concrete sequence
push 5, push 7, pop, push 9 over natural-number elements. -/
theorem vec_push_pop_sequences_witness :
    (run_vec_ops (ext_vec_empty Nat)
        [VecOp.push 5, VecOp.push 7, VecOp.pop, VecOp.push 9]).size
      = num_pushes [VecOp.push 5, VecOp.push 7, VecOp.pop, VecOp.push (β := Nat) 9]
        - num_pops [VecOp.push 5, VecOp.push 7, VecOp.pop, VecOp.push (β := Nat) 9]
    ∧ num_pops [VecOp.push 5, VecOp.push 7, VecOp.pop, VecOp.push (β := Nat) 9]
        ≤ num_pushes [VecOp.push 5, VecOp.push 7, VecOp.pop, VecOp.push (β := Nat) 9]
    ∧ (run_vec_ops (ext_vec_empty Nat)
          [VecOp.push 5, VecOp.push 7, VecOp.pop, VecOp.push 9]).data.take
        (run_vec_ops (ext_vec_empty Nat)
          [VecOp.push 5, VecOp.push 7, VecOp.pop, VecOp.push 9]).size
      = (stack_run [] [VecOp.push 5, VecOp.push 7, VecOp.pop, VecOp.push 9]).map some :=
  vec_push_pop_sequences [VecOp.push 5, VecOp.push 7, VecOp.pop, VecOp.push 9] (by decide)

theorem ext_vec_reserve_capacity {β : Type} (v : ExtVec β) (amount : Nat) :
    amount ≤ (ext_vec_reserve v amount).capacity
    ∧ (ext_vec_reserve v amount).size = v.size
    ∧ v.capacity ≤ (ext_vec_reserve v amount).capacity := by
  rw [ext_vec_reserve]
  split
  · exact ⟨by dsimp only; omega, rfl, by dsimp only; omega⟩
  · exact ⟨by omega, rfl, le_refl _⟩

/-- C9: the invariant `size ≤ capacity` holds after every vector operation
(push_back, pop_back, insert, erase, reserve, resize, clear, shrink_to_fit,
under the asserted index contracts), the unallocated/NULL handle is a valid
representation of the empty vector (`size = capacity = 0`), and
shrink_to_fit followed by reserve(old size) leaves the size and every
element below it unchanged at its index. -/
theorem vec_capacity_invariants {β : Type} :
    (ext_vec_empty β).size = 0 ∧ (ext_vec_empty β).capacity = 0
    ∧ (∀ (v : ExtVec β) (e : β), v.size ≤ v.capacity → v.data.length = v.capacity →
        (ext_vec_push_back v e).size ≤ (ext_vec_push_back v e).capacity)
    ∧ (∀ v : ExtVec β, v.size ≤ v.capacity →
        (ext_vec_pop_back v).size ≤ (ext_vec_pop_back v).capacity)
    ∧ (∀ (v : ExtVec β) (i : Nat) (e : β), i ≤ v.size → v.size ≤ v.capacity →
        v.data.length = v.capacity →
        (ext_vec_insert v i e).size ≤ (ext_vec_insert v i e).capacity)
    ∧ (∀ (v : ExtVec β) (i : Nat), i < v.size → v.size ≤ v.capacity →
        (ext_vec_erase v i).size ≤ (ext_vec_erase v i).capacity)
    ∧ (∀ (v : ExtVec β) (n : Nat), v.size ≤ v.capacity →
        (ext_vec_reserve v n).size ≤ (ext_vec_reserve v n).capacity)
    ∧ (∀ (v : ExtVec β) (n : Nat) (e : β), v.size ≤ v.capacity →
        (ext_vec_resize v n e).size ≤ (ext_vec_resize v n e).capacity)
    ∧ (∀ v : ExtVec β, (ext_vec_clear v).size ≤ (ext_vec_clear v).capacity)
    ∧ (∀ v : ExtVec β, (ext_vec_shrink_to_fit v).size ≤ (ext_vec_shrink_to_fit v).capacity)
    ∧ (∀ v : ExtVec β,
        (ext_vec_reserve (ext_vec_shrink_to_fit v) v.size).size = v.size
        ∧ ∀ i, i < v.size →
            (ext_vec_reserve (ext_vec_shrink_to_fit v) v.size).data.getD i none
              = v.data.getD i none) := by
  refine ⟨rfl, rfl, ?_, ?_, ?_, ?_, ?_, ?_, ?_, ?_, ?_⟩
  · intro v e hsz hlen
    obtain ⟨g1, g2, g3, _⟩ := ext_vec_maybe_grow_spec v 1 hlen
    show (ext_vec_maybe_grow v 1).size + 1 ≤ (ext_vec_maybe_grow v 1).capacity
    omega
  · intro v hsz
    show v.size - 1 ≤ v.capacity
    omega
  · intro v i e hi hsz hlen
    obtain ⟨g1, g2, g3, _⟩ := ext_vec_maybe_grow_spec v 1 hlen
    show (ext_vec_maybe_grow v 1).size + 1 ≤ (ext_vec_maybe_grow v 1).capacity
    omega
  · intro v i hi hsz
    show v.size - 1 ≤ v.capacity
    omega
  · intro v n hsz
    obtain ⟨r1, r2, r3⟩ := ext_vec_reserve_capacity v n
    omega
  · intro v n e hsz
    rw [ext_vec_resize]
    split
    · dsimp only
      omega
    · obtain ⟨r1, r2, r3⟩ := ext_vec_reserve_capacity v n
      show n ≤ (ext_vec_reserve v n).capacity
      omega
  · intro v
    show (0 : Nat) ≤ v.capacity
    omega
  · intro v
    rw [ext_vec_shrink_to_fit]
    split
    · dsimp only
      omega
    · dsimp only
      omega
  · intro v
    by_cases hz : v.size = 0
    · rw [ext_vec_shrink_to_fit, if_neg (by omega)]
      rw [ext_vec_reserve]
      rw [if_neg (by dsimp only; omega)]
      exact ⟨by dsimp only; omega, fun i hi => by omega⟩
    · rw [ext_vec_shrink_to_fit, if_pos hz]
      rw [ext_vec_reserve]
      rw [if_neg (by dsimp only; omega)]
      refine ⟨rfl, ?_⟩
      intro i hi
      exact getD_take v.data v.size i none hi

/-- C9 witness: the invariant theorem applied to a concrete 3-slot vector
holding two elements. -/
theorem vec_capacity_invariants_witness :
    (ext_vec_push_back vec_witness 6).size ≤ (ext_vec_push_back vec_witness 6).capacity
    ∧ (ext_vec_reserve (ext_vec_shrink_to_fit vec_witness) vec_witness.size).size
        = vec_witness.size
    ∧ (ext_vec_reserve (ext_vec_shrink_to_fit vec_witness) vec_witness.size).data.getD 0 none
        = vec_witness.data.getD 0 none :=
  ⟨vec_capacity_invariants.2.2.1 vec_witness 6 (by decide) (by decide),
   (vec_capacity_invariants.2.2.2.2.2.2.2.2.2.2 vec_witness).1,
   (vec_capacity_invariants.2.2.2.2.2.2.2.2.2.2 vec_witness).2 0 (by decide)⟩

theorem str_grow_cap_spec (limit : Nat) :
    ∀ fuel cap, 1 ≤ cap → limit < cap + fuel →
      limit < str_grow_cap limit cap fuel ∧ cap ≤ str_grow_cap limit cap fuel := by
  intro fuel
  induction fuel with
  | zero => intro cap h1 h2; rw [str_grow_cap]; omega
  | succ fuel ih =>
    intro cap h1 h2
    rw [str_grow_cap]
    split
    · have := ih (cap * 2) (by omega) (by omega)
      omega
    · omega

theorem ext_str_maybe_grow_spec (s : ExtString) (amount : Nat)
    (hsz : s.size + 1 ≤ s.capacity) (hlen : s.data.length = s.capacity) :
    (ext_str_maybe_grow s amount).size = s.size
    ∧ s.size + amount < (ext_str_maybe_grow s amount).capacity
    ∧ (ext_str_maybe_grow s amount).data.length = (ext_str_maybe_grow s amount).capacity
    ∧ ∀ n, n ≤ s.capacity → (ext_str_maybe_grow s amount).data.take n = s.data.take n := by
  rw [ext_str_maybe_grow]
  split
  · dsimp only
    have hnc : s.size + amount < (if s.capacity > LOGARITHMIC_GROWTH_TRESH
          then s.capacity + amount
          else str_grow_cap (s.size + amount) s.capacity (s.size + amount + 1))
        ∧ s.capacity ≤ (if s.capacity > LOGARITHMIC_GROWTH_TRESH
          then s.capacity + amount
          else str_grow_cap (s.size + amount) s.capacity (s.size + amount + 1)) := by
      split
      · omega
      · exact str_grow_cap_spec (s.size + amount) (s.size + amount + 1) s.capacity
          (by omega) (by omega)
    refine ⟨rfl, hnc.1, ?_, ?_⟩
    · simp only [List.length_append, List.length_replicate, hlen]
      omega
    · intro n hn
      exact List.take_append_of_le_length (by omega)
  · exact ⟨rfl, by omega, hlen, fun n _ => rfl⟩

theorem getD_write_nul (A : List (Option Nat)) (B : List Nat) (R : List (Option Nat)) :
    (A ++ B.map some ++ some 0 :: R).getD (A.length + B.length) none = some 0 := by
  rw [List.getD_append_right (A ++ B.map some) _ none _ (by simp)]
  simp

theorem vsnprintf_write_nul (s : ExtString) (out : List Nat)
    (h : out.length + 1 ≤ s.capacity) (hlen : s.data.length = s.capacity) :
    (vsnprintf_write s out).data.getD out.length none = some 0
    ∧ (vsnprintf_write s out).data.length = s.capacity := by
  have htake : out.take (s.capacity - 1) = out := List.take_of_length_le (by omega)
  constructor
  · show ((out.take (s.capacity - 1)).map some
      ++ some 0 :: s.data.drop (min out.length (s.capacity - 1) + 1)).getD
        out.length none = some 0
    rw [htake]
    rw [List.getD_append_right _ _ none _ (by simp)]
    simp
  · show ((out.take (s.capacity - 1)).map some
      ++ some 0 :: s.data.drop (min out.length (s.capacity - 1) + 1)).length = s.capacity
    simp only [List.length_append, List.length_map, List.length_take,
      List.length_cons, List.length_drop, hlen]
    omega

theorem vsnprintf_write_len (s : ExtString) (out : List Nat)
    (hc : 1 ≤ s.capacity) (hlen : s.data.length = s.capacity) :
    (vsnprintf_write s out).data.length = s.capacity := by
  show ((out.take (s.capacity - 1)).map some
    ++ some 0 :: s.data.drop (min out.length (s.capacity - 1) + 1)).length = s.capacity
  simp only [List.length_append, List.length_map, List.length_take,
    List.length_cons, List.length_drop, hlen]
  omega

theorem vsnprintf_write_at_nul (s : ExtString) (pos : Nat) (out : List Nat)
    (hfit : pos + out.length + 1 ≤ s.capacity)
    (hlen : s.data.length = s.capacity) :
    (vsnprintf_write_at s pos (s.capacity - pos) out).data.getD
        (pos + out.length) none = some 0
    ∧ (vsnprintf_write_at s pos (s.capacity - pos) out).data.length = s.capacity
    ∧ (vsnprintf_write_at s pos (s.capacity - pos) out).size = s.size
    ∧ (vsnprintf_write_at s pos (s.capacity - pos) out).capacity = s.capacity := by
  rw [vsnprintf_write_at, if_neg (by omega)]
  have htake : out.take (s.capacity - pos - 1) = out := List.take_of_length_le (by omega)
  refine ⟨?_, ?_, rfl, rfl⟩
  · show (s.data.take pos ++ (out.take (s.capacity - pos - 1)).map some
      ++ some 0 :: s.data.drop (pos + min out.length (s.capacity - pos - 1) + 1)).getD
        (pos + out.length) none = some 0
    rw [htake]
    have hidx : pos + out.length = (s.data.take pos).length + out.length := by
      rw [List.length_take]
      omega
    rw [hidx]
    exact getD_write_nul _ out _
  · show (s.data.take pos ++ (out.take (s.capacity - pos - 1)).map some
      ++ some 0 :: s.data.drop (pos + min out.length (s.capacity - pos - 1) + 1)).length
        = s.capacity
    simp only [List.length_append, List.length_map, List.length_take,
      List.length_cons, List.length_drop, hlen]
    omega

theorem vsnprintf_write_at_len (s : ExtString) (pos : Nat) (out : List Nat)
    (hpos : pos < s.capacity) (hlen : s.data.length = s.capacity) :
    (vsnprintf_write_at s pos (s.capacity - pos) out).data.length = s.capacity
    ∧ (vsnprintf_write_at s pos (s.capacity - pos) out).size = s.size
    ∧ (vsnprintf_write_at s pos (s.capacity - pos) out).capacity = s.capacity := by
  rw [vsnprintf_write_at, if_neg (by omega)]
  refine ⟨?_, rfl, rfl⟩
  show (s.data.take pos ++ (out.take (s.capacity - pos - 1)).map some
    ++ some 0 :: s.data.drop (pos + min out.length (s.capacity - pos - 1) + 1)).length
      = s.capacity
  simp only [List.length_append, List.length_map, List.length_take,
    List.length_cons, List.length_drop, hlen]
  omega

/-- C6 counterexample: the claim includes ext_str_new_cap among the
constructors that establish `data[size] == 0`, but ext_str_new_cap mallocs
the buffer and returns without writing any byte: `data[0]` (the terminator
position for `size = 0`) is uninitialized, not 0. -/
theorem new_cap_not_nul_terminated :
    ¬ ((ext_str_new_cap 4).data.getD (ext_str_new_cap 4).size none = some 0) := by
  decide

/-- C6 (amended): every string produced by ext_str_new_len, ext_str_new or
ext_str_vfmt satisfies the NUL invariant `data[size] = 0` with
`size + 1 ≤ capacity`, and every mutating operation (all the append
variants — by length, by string, by C string, and the formatted
ext_str_append_vfmt / ext_str_append_fmt — as well as resize,
shrink_to_fit, reserve) preserves it; ext_str_new_cap reserves the
terminator byte (`size + 1 ≤ capacity`) but leaves the buffer — terminator
position included — uninitialized, so the NUL part holds for it only after
the first mutation. -/
theorem str_nul_invariant :
    (∀ c, (ext_str_new_cap c).size + 1 ≤ (ext_str_new_cap c).capacity
        ∧ (ext_str_new_cap c).data.length = (ext_str_new_cap c).capacity)
    ∧ (∀ bs, str_nul_ok (ext_str_new_len bs))
    ∧ (∀ bs, str_nul_ok (ext_str_new bs))
    ∧ (∀ fmt_len out, str_nul_ok (ext_str_vfmt fmt_len out))
    ∧ (∀ s bs, str_nul_ok s → str_nul_ok (ext_str_append_len s bs))
    ∧ (∀ s other, str_nul_ok s → str_nul_ok (ext_str_append_str s other))
    ∧ (∀ s bs, str_nul_ok s → str_nul_ok (ext_str_append s bs))
    ∧ (∀ s out, str_nul_ok s → str_nul_ok (ext_str_append_vfmt s out))
    ∧ (∀ s out, str_nul_ok s → str_nul_ok (ext_str_append_fmt s out))
    ∧ (∀ s n, str_nul_ok s → str_nul_ok (ext_str_resize s n))
    ∧ (∀ s, str_nul_ok s → str_nul_ok (ext_str_shrink_to_fit s))
    ∧ (∀ s n, str_nul_ok s → str_nul_ok (ext_str_reserve s n)) := by
  have append_len_ok : ∀ (s : ExtString) (bs : List Nat),
      str_nul_ok s → str_nul_ok (ext_str_append_len s bs) := by
    intro s bs hs
    obtain ⟨hnul, hsz, hlen⟩ := hs
    obtain ⟨g1, g2, g3, _⟩ := ext_str_maybe_grow_spec s bs.length hsz hlen
    have hsz1 : (ext_str_maybe_grow s bs.length).size
        ≤ (ext_str_maybe_grow s bs.length).data.length := by omega
    refine ⟨?_, ?_, ?_⟩
    · show ((ext_str_maybe_grow s bs.length).data.take (ext_str_maybe_grow s bs.length).size
          ++ bs.map some ++ some 0 :: _).getD
            ((ext_str_maybe_grow s bs.length).size + bs.length) none = some 0
      have hidx : (ext_str_maybe_grow s bs.length).size + bs.length
          = ((ext_str_maybe_grow s bs.length).data.take
              (ext_str_maybe_grow s bs.length).size).length + bs.length := by
        rw [List.length_take]
        omega
      rw [hidx]
      exact getD_write_nul _ bs _
    · show (ext_str_maybe_grow s bs.length).size + bs.length + 1
        ≤ (ext_str_maybe_grow s bs.length).capacity
      omega
    · show ((ext_str_maybe_grow s bs.length).data.take (ext_str_maybe_grow s bs.length).size
          ++ bs.map some ++ some 0 :: (ext_str_maybe_grow s bs.length).data.drop
            ((ext_str_maybe_grow s bs.length).size + bs.length + 1)).length
        = (ext_str_maybe_grow s bs.length).capacity
      simp only [List.length_append, List.length_map, List.length_take,
        List.length_cons, List.length_drop]
      omega
  have append_vfmt_ok : ∀ (s : ExtString) (out : List Nat),
      str_nul_ok s → str_nul_ok (ext_str_append_vfmt s out) := by
    intro s out hs
    obtain ⟨hnul, hsz, hlen⟩ := hs
    rw [ext_str_append_vfmt]
    dsimp only
    split
    · rename_i hge
      obtain ⟨l1, l2, l3⟩ := vsnprintf_write_at_len s s.size out (by omega) hlen
      have hsz1 : (vsnprintf_write_at s s.size (s.capacity - s.size) out).size + 1
          ≤ (vsnprintf_write_at s s.size (s.capacity - s.size) out).capacity := by
        rw [l2, l3]
        omega
      have hlen1 : (vsnprintf_write_at s s.size (s.capacity - s.size) out).data.length
          = (vsnprintf_write_at s s.size (s.capacity - s.size) out).capacity := by
        rw [l1, l3]
      obtain ⟨g1, g2, g3, _⟩ := ext_str_maybe_grow_spec
        (vsnprintf_write_at s s.size (s.capacity - s.size) out) out.length hsz1 hlen1
      rw [l2] at g2
      have hfit2 : s.size + out.length + 1 ≤ (ext_str_maybe_grow
          (vsnprintf_write_at s s.size (s.capacity - s.size) out) out.length).capacity := by
        omega
      obtain ⟨w1, w2, w3, w4⟩ := vsnprintf_write_at_nul
        (ext_str_maybe_grow (vsnprintf_write_at s s.size (s.capacity - s.size) out)
          out.length) s.size out hfit2 g3
      refine ⟨w1, ?_, ?_⟩
      · show s.size + out.length + 1
          ≤ (vsnprintf_write_at
              (ext_str_maybe_grow (vsnprintf_write_at s s.size (s.capacity - s.size) out)
                out.length) s.size
              ((ext_str_maybe_grow (vsnprintf_write_at s s.size (s.capacity - s.size) out)
                out.length).capacity - s.size) out).capacity
        rw [w4]
        exact hfit2
      · show (vsnprintf_write_at
              (ext_str_maybe_grow (vsnprintf_write_at s s.size (s.capacity - s.size) out)
                out.length) s.size
              ((ext_str_maybe_grow (vsnprintf_write_at s s.size (s.capacity - s.size) out)
                out.length).capacity - s.size) out).data.length
          = (vsnprintf_write_at
              (ext_str_maybe_grow (vsnprintf_write_at s s.size (s.capacity - s.size) out)
                out.length) s.size
              ((ext_str_maybe_grow (vsnprintf_write_at s s.size (s.capacity - s.size) out)
                out.length).capacity - s.size) out).capacity
        rw [w2, w4]
    · rename_i hlt
      have hfit : s.size + out.length + 1 ≤ s.capacity := by omega
      obtain ⟨w1, w2, w3, w4⟩ := vsnprintf_write_at_nul s s.size out hfit hlen
      refine ⟨w1, ?_, ?_⟩
      · show s.size + out.length + 1
          ≤ (vsnprintf_write_at s s.size (s.capacity - s.size) out).capacity
        rw [w4]
        exact hfit
      · show (vsnprintf_write_at s s.size (s.capacity - s.size) out).data.length
          = (vsnprintf_write_at s s.size (s.capacity - s.size) out).capacity
        rw [w2, w4]
  refine ⟨?_, ?_, ?_, ?_, append_len_ok, ?_, ?_, append_vfmt_ok, ?_, ?_, ?_, ?_⟩
  · intro c
    constructor
    · show 0 + 1 ≤ c + 1
      omega
    · show (List.replicate (c + 1) (none : Option Nat)).length = c + 1
      simp
  · intro bs
    refine ⟨?_, ?_, ?_⟩
    · show (bs.map some ++ [some 0]).getD bs.length none = some 0
      rw [List.getD_append_right _ _ none _ (by simp)]
      simp
    · show bs.length + 1 ≤ bs.length + 1
      omega
    · show (bs.map some ++ [some 0]).length = bs.length + 1
      simp
  · intro bs
    refine ⟨?_, ?_, ?_⟩
    · show (bs.map some ++ [some 0]).getD bs.length none = some 0
      rw [List.getD_append_right _ _ none _ (by simp)]
      simp
    · show bs.length + 1 ≤ bs.length + 1
      omega
    · show (bs.map some ++ [some 0]).length = bs.length + 1
      simp
  · intro fmt_len out
    rw [ext_str_vfmt]
    dsimp only
    have hlen0 : (ext_str_new_cap (fmt_len * 2)).data.length
        = (ext_str_new_cap (fmt_len * 2)).capacity := by
      show (List.replicate (fmt_len * 2 + 1) (none : Option Nat)).length = fmt_len * 2 + 1
      simp
    split
    · rename_i hge
      have hlen1 : (vsnprintf_write (ext_str_new_cap (fmt_len * 2)) out).data.length
          = (vsnprintf_write (ext_str_new_cap (fmt_len * 2)) out).capacity :=
        vsnprintf_write_len _ out (by show 1 ≤ fmt_len * 2 + 1; omega) hlen0
      obtain ⟨g1, g2, g3, _⟩ := ext_str_maybe_grow_spec
        (vsnprintf_write (ext_str_new_cap (fmt_len * 2)) out) out.length
        (by show 0 + 1 ≤ fmt_len * 2 + 1; omega) hlen1
      have hfit : out.length + 1
          ≤ (ext_str_maybe_grow (vsnprintf_write (ext_str_new_cap (fmt_len * 2)) out)
              out.length).capacity := by
        have : (vsnprintf_write (ext_str_new_cap (fmt_len * 2)) out).size = 0 := rfl
        omega
      obtain ⟨w1, w2⟩ := vsnprintf_write_nul
        (ext_str_maybe_grow (vsnprintf_write (ext_str_new_cap (fmt_len * 2)) out) out.length)
        out hfit g3
      exact ⟨w1, by
        show out.length + 1 ≤ (ext_str_maybe_grow
          (vsnprintf_write (ext_str_new_cap (fmt_len * 2)) out) out.length).capacity
        exact hfit, by
        show (vsnprintf_write (ext_str_maybe_grow
          (vsnprintf_write (ext_str_new_cap (fmt_len * 2)) out) out.length) out).data.length
          = (ext_str_maybe_grow
            (vsnprintf_write (ext_str_new_cap (fmt_len * 2)) out) out.length).capacity
        exact w2⟩
    · rename_i hlt
      have hfit : out.length + 1 ≤ (ext_str_new_cap (fmt_len * 2)).capacity := by
        have hc : (ext_str_new_cap (fmt_len * 2)).capacity = fmt_len * 2 + 1 := rfl
        omega
      obtain ⟨w1, w2⟩ := vsnprintf_write_nul (ext_str_new_cap (fmt_len * 2)) out hfit hlen0
      exact ⟨w1, hfit, w2⟩
  · intro s other hs
    exact append_len_ok s (str_bytes other) hs
  · intro s bs hs
    exact append_len_ok s bs hs
  · intro s out hs
    exact append_vfmt_ok s out hs
  · intro s n hs
    obtain ⟨hnul, hsz, hlen⟩ := hs
    obtain ⟨g1, g2, g3, _⟩ := ext_str_maybe_grow_spec s n hsz hlen
    refine ⟨?_, ?_, ?_⟩
    · show ((ext_str_maybe_grow s n).data.set n (some 0)).getD n none = some 0
      exact getD_set_self _ n _ _ (by omega)
    · show n + 1 ≤ (ext_str_maybe_grow s n).capacity
      omega
    · show ((ext_str_maybe_grow s n).data.set n (some 0)).length
        = (ext_str_maybe_grow s n).capacity
      simp only [List.length_set]
      exact g3
  · intro s hs
    obtain ⟨hnul, hsz, hlen⟩ := hs
    rw [ext_str_shrink_to_fit]
    split
    · refine ⟨?_, by dsimp only; omega, ?_⟩
      · show (s.data.take (s.size + 1)).getD s.size none = some 0
        rw [getD_take s.data (s.size + 1) s.size none (by omega)]
        exact hnul
      · show (s.data.take (s.size + 1)).length = s.size + 1
        simp only [List.length_take]
        omega
    · exact ⟨hnul, hsz, hlen⟩
  · intro s n hs
    obtain ⟨hnul, hsz, hlen⟩ := hs
    rw [ext_str_reserve]
    split
    · refine ⟨?_, by dsimp only; omega, ?_⟩
      · show (s.data ++ List.replicate (n + 1 - s.capacity) none).getD s.size none = some 0
        rw [List.getD_append _ _ none _ (by omega)]
        exact hnul
      · show (s.data ++ List.replicate (n + 1 - s.capacity) none).length = n + 1
        simp only [List.length_append, List.length_replicate, hlen]
        omega
    · exact ⟨hnul, hsz, hlen⟩

/-- C6 witness: the NUL invariant established by ext_str_new_len and
preserved through a length append, a formatted append (which regrows: the
three output bytes exceed the one byte of room) and a resize, at concrete
inputs. -/
theorem str_nul_invariant_witness :
    str_nul_ok (ext_str_append_len (ext_str_new_len [7]) [8, 9])
    ∧ str_nul_ok (ext_str_append_vfmt (ext_str_new_len [7]) [8, 9, 10])
    ∧ str_nul_ok (ext_str_resize (ext_str_new_len [7]) 3) :=
  ⟨str_nul_invariant.2.2.2.2.1 (ext_str_new_len [7]) [8, 9]
      (by unfold str_nul_ok; decide),
   str_nul_invariant.2.2.2.2.2.2.2.1 (ext_str_new_len [7]) [8, 9, 10]
      (by unfold str_nul_ok; decide),
   str_nul_invariant.2.2.2.2.2.2.2.2.2.1 (ext_str_new_len [7]) 3
      (by unfold str_nul_ok; decide)⟩

theorem match_bytes_iff (s needle : List Nat) (i : Nat) :
    match_bytes s needle i = true ↔ occurs_at s needle i := by
  simp [match_bytes, occurs_at]

theorem find_scan_spec (s needle : List Nat) (stop : Nat) (hstop : stop < ext_str_npos) :
    ∀ fuel i, stop + 2 ≤ fuel + i →
      (find_scan s needle stop fuel i = ext_str_npos ↔
          ∀ j, i ≤ j → j ≤ stop → ¬ occurs_at s needle j)
      ∧ (find_scan s needle stop fuel i ≠ ext_str_npos →
          i ≤ find_scan s needle stop fuel i ∧ find_scan s needle stop fuel i ≤ stop
            ∧ occurs_at s needle (find_scan s needle stop fuel i)) := by
  intro fuel
  induction fuel with
  | zero =>
    intro i hfuel
    rw [find_scan]
    refine ⟨⟨fun _ j hj1 hj2 => by omega, fun _ => rfl⟩, fun h => absurd rfl h⟩
  | succ fuel ih =>
    intro i hfuel
    rw [find_scan]
    split
    · rename_i hle
      split
      · rename_i hm
        constructor
        · constructor
          · intro hnp
            omega
          · intro hall
            exact absurd ((match_bytes_iff s needle i).mp hm) (hall i (le_refl i) hle)
        · intro _
          exact ⟨le_refl i, hle, (match_bytes_iff s needle i).mp hm⟩
      · rename_i hm
        have hnm : ¬ occurs_at s needle i := fun hocc =>
          hm ((match_bytes_iff s needle i).mpr hocc)
        obtain ⟨ih1, ih2⟩ := ih (i + 1) (by omega)
        constructor
        · rw [ih1]
          constructor
          · intro hall j hj1 hj2
            rcases Nat.eq_or_lt_of_le hj1 with h | h
            · rw [← h]; exact hnm
            · exact hall j h hj2
          · intro hall j hj1 hj2
            exact hall j (by omega) hj2
        · intro hne
          obtain ⟨a1, a2, a3⟩ := ih2 hne
          exact ⟨by omega, a2, a3⟩
    · rename_i hle
      refine ⟨⟨fun _ j hj1 hj2 => by omega, fun _ => rfl⟩, fun h => absurd rfl h⟩

theorem rfind_scan_match (s needle : List Nat) (i : Nat)
    (h : match_bytes s needle i = true) : rfind_scan s needle i = i := by
  cases i with
  | zero => rw [rfind_scan, if_pos h]
  | succ j => rw [rfind_scan, if_pos h]

theorem rfind_scan_spec (s needle : List Nat) :
    ∀ i, i < ext_str_npos →
      (rfind_scan s needle i = ext_str_npos ↔ ∀ j, j ≤ i → ¬ occurs_at s needle j)
      ∧ (rfind_scan s needle i ≠ ext_str_npos →
          rfind_scan s needle i ≤ i ∧ occurs_at s needle (rfind_scan s needle i)) := by
  intro i
  induction i with
  | zero =>
    intro h0
    rw [rfind_scan]
    split
    · rename_i hm
      constructor
      · constructor
        · intro h; omega
        · intro hall
          exact absurd ((match_bytes_iff s needle 0).mp hm) (hall 0 (le_refl 0))
      · intro _
        exact ⟨le_refl 0, (match_bytes_iff s needle 0).mp hm⟩
    · rename_i hm
      refine ⟨⟨fun _ j hj => ?_, fun _ => rfl⟩, fun h => absurd rfl h⟩
      have hj0 : j = 0 := by omega
      rw [hj0]
      exact fun hocc => hm ((match_bytes_iff s needle 0).mpr hocc)
  | succ i ih =>
    intro hi
    rw [rfind_scan]
    split
    · rename_i hm
      constructor
      · constructor
        · intro h; omega
        · intro hall
          exact absurd ((match_bytes_iff s needle (i + 1)).mp hm)
            (hall (i + 1) (le_refl _))
      · intro _
        exact ⟨le_refl _, (match_bytes_iff s needle (i + 1)).mp hm⟩
    · rename_i hm
      have hnm : ¬ occurs_at s needle (i + 1) := fun hocc =>
        hm ((match_bytes_iff s needle (i + 1)).mpr hocc)
      obtain ⟨ih1, ih2⟩ := ih (by omega)
      constructor
      · rw [ih1]
        constructor
        · intro hall j hj
          rcases Nat.lt_or_ge j (i + 1) with h | h
          · exact hall j (by omega)
          · have : j = i + 1 := by omega
            rw [this]; exact hnm
        · intro hall j hj
          exact hall j (by omega)
      · intro hne
        obtain ⟨a1, a2⟩ := ih2 hne
        exact ⟨by omega, a2⟩

theorem occurs_at_bound (s needle : List Nat) (i : Nat) (hi : i ≤ s.length)
    (h : occurs_at s needle i) : i + needle.length ≤ s.length := by
  have hlen := congrArg List.length h
  simp only [List.length_take, List.length_drop] at hlen
  omega

/-- C7 counterexample: for the two-byte string and an empty needle with
start position 2, ext_str_find_len returns 2 = size, which is neither the
ext_str_npos sentinel nor a valid index in `[0, size)` — refuting the claim
that the result is always one of the two. -/
theorem empty_needle_find_returns_size :
    ext_str_find_len [10, 20] 2 [] = 2
    ∧ ¬(ext_str_find_len [10, 20] 2 [] = ext_str_npos
        ∨ ext_str_find_len [10, 20] 2 [] < ([10, 20] : List Nat).length) := by
  constructor
  · rfl
  · intro h
    rcases h with h | h
    · exact absurd h (by decide)
    · exact absurd h (by decide)

/-- C7 (amended): for every string, start position and needle,
ext_str_find_len returns either the ext_str_npos sentinel or an occurrence
index `i` with `start_pos ≤ i` and `i + needle_len ≤ size` (so `i < size`
whenever the needle is nonempty; an empty needle can yield `i = size`), and
it returns the sentinel exactly when no occurrence at or after `start_pos`
fits in the string. ext_str_rfind_len returns either the sentinel or an
occurrence index `i ≤ size` with `i + needle_len ≤ size` (again `i < size`
for a nonempty needle), and, for a nonempty needle, it returns the sentinel
exactly when the string is shorter than the needle, the start position is
not below the size, or no occurrence exists at or below the clamped
backward-scan start index. Since every non-sentinel result is at most
`size < ext_str_npos`, the sentinel is distinguishable from every valid
index. -/
theorem find_rfind_sentinel (s : List Nat) (start_pos : Nat) (needle : List Nat)
    (hs : s.length < ext_str_npos) :
    (ext_str_find_len s start_pos needle ≠ ext_str_npos →
      start_pos ≤ ext_str_find_len s start_pos needle
      ∧ ext_str_find_len s start_pos needle + needle.length ≤ s.length
      ∧ occurs_at s needle (ext_str_find_len s start_pos needle)
      ∧ (needle ≠ [] → ext_str_find_len s start_pos needle < s.length))
    ∧ (ext_str_find_len s start_pos needle = ext_str_npos ↔
        ∀ i, start_pos ≤ i → i + needle.length ≤ s.length → ¬ occurs_at s needle i)
    ∧ (ext_str_rfind_len s start_pos needle ≠ ext_str_npos →
        ext_str_rfind_len s start_pos needle ≤ s.length
        ∧ ext_str_rfind_len s start_pos needle + needle.length ≤ s.length
        ∧ occurs_at s needle (ext_str_rfind_len s start_pos needle)
        ∧ (needle ≠ [] → ext_str_rfind_len s start_pos needle < s.length))
    ∧ (needle ≠ [] →
        (ext_str_rfind_len s start_pos needle = ext_str_npos ↔
          (s.length < needle.length ∨ s.length ≤ start_pos
            ∨ ∀ i, i ≤ rfind_scan_start s needle start_pos →
                ¬ occurs_at s needle i))) := by
  have hnpos : ext_str_npos = 18446744073709551615 := rfl
  by_cases hsz : s.length < needle.length
  · have hf : ext_str_find_len s start_pos needle = ext_str_npos := by
      rw [ext_str_find_len, if_pos hsz]
    have hr : ext_str_rfind_len s start_pos needle = ext_str_npos := by
      rw [ext_str_rfind_len, if_pos hsz]
    refine ⟨fun h => absurd hf h, ?_, fun h => absurd hr h, fun _ => ?_⟩
    · rw [hf]
      exact ⟨fun _ i h1 h2 hocc => by omega, fun _ => rfl⟩
    · rw [hr]
      exact ⟨fun _ => Or.inl hsz, fun _ => rfl⟩
  · push_neg at hsz
    have hstop : s.length - needle.length < ext_str_npos := by omega
    obtain ⟨f1, f2⟩ := find_scan_spec s needle (s.length - needle.length) hstop
      (s.length - needle.length + 2) start_pos (by omega)
    have hfeq : ext_str_find_len s start_pos needle
        = find_scan s needle (s.length - needle.length)
            (s.length - needle.length + 2) start_pos := by
      rw [ext_str_find_len, if_neg (by omega)]
    have hlen_ne : needle ≠ [] → needle.length ≠ 0 := by
      intro hnn h0
      exact hnn (List.eq_nil_of_length_eq_zero h0)
    refine ⟨?_, ?_, ?_, ?_⟩
    · intro hne
      rw [hfeq] at hne ⊢
      obtain ⟨a1, a2, a3⟩ := f2 hne
      exact ⟨a1, by omega, a3, fun hnn => by have := hlen_ne hnn; omega⟩
    · rw [hfeq, f1]
      constructor
      · intro hall i h1 h2
        exact hall i h1 (by omega)
      · intro hall j h1 h2
        exact hall j h1 (by omega)
    · -- rfind soundness
      intro hne
      by_cases hst : s.length ≤ start_pos
      · exfalso
        apply hne
        rw [ext_str_rfind_len, if_neg (by omega), if_pos (by omega)]
      · push_neg at hst
        by_cases hsp : start_pos ≤ needle.length
        · by_cases h0 : needle.length = 0
          · have hempty : needle = [] := List.eq_nil_of_length_eq_zero h0
            have hi0 : rfind_scan_start s needle start_pos = s.length := by
              rw [rfind_scan_start]
              rw [if_pos hsp]
              rw [u64, u64, u64]
              omega
            have hres : ext_str_rfind_len s start_pos needle
                = rfind_scan s needle s.length := by
              rw [ext_str_rfind_len, if_neg (by omega), if_neg (by omega)]
              rw [hi0, if_neg (by omega)]
            have hmatch : match_bytes s needle s.length = true := by
              rw [match_bytes, hempty]
              simp
            rw [hres, rfind_scan_match s needle s.length hmatch]
            refine ⟨le_refl _, by omega, ?_, fun hnn => absurd hempty hnn⟩
            rw [hempty, occurs_at]
            simp
          · have hi0 : rfind_scan_start s needle start_pos
                = s.length - needle.length := by
              rw [rfind_scan_start]
              rw [if_pos hsp]
              rw [u64, u64, u64]
              omega
            have hres : ext_str_rfind_len s start_pos needle
                = rfind_scan s needle (s.length - needle.length) := by
              rw [ext_str_rfind_len, if_neg (by omega), if_neg (by omega)]
              rw [hi0, if_neg (by omega)]
            rw [hres] at hne ⊢
            obtain ⟨r1, r2⟩ := (rfind_scan_spec s needle (s.length - needle.length)
              (by omega)).2 hne
            have hb := occurs_at_bound s needle _ (by omega) r2
            exact ⟨by omega, hb, r2, fun _ => by omega⟩
        · push_neg at hsp
          have hi0 : rfind_scan_start s needle start_pos
              = s.length - start_pos - 1 := by
            rw [rfind_scan_start]
            rw [if_neg (by omega)]
            rw [u64, u64]
            omega
          have hres : ext_str_rfind_len s start_pos needle
              = rfind_scan s needle (s.length - start_pos - 1) := by
            rw [ext_str_rfind_len, if_neg (by omega), if_neg (by omega)]
            rw [hi0, if_neg (by omega)]
          rw [hres] at hne ⊢
          obtain ⟨r1, r2⟩ := (rfind_scan_spec s needle (s.length - start_pos - 1)
            (by omega)).2 hne
          have hb := occurs_at_bound s needle _ (by omega) r2
          refine ⟨by omega, hb, r2, fun hnn => ?_⟩
          have := hlen_ne hnn
          omega
    · -- rfind completeness for a nonempty needle
      intro hnn
      have hlne : needle.length ≠ 0 := hlen_ne hnn
      by_cases hst : s.length ≤ start_pos
      · have hr : ext_str_rfind_len s start_pos needle = ext_str_npos := by
          rw [ext_str_rfind_len, if_neg (by omega), if_pos (by omega)]
        rw [hr]
        exact ⟨fun _ => Or.inr (Or.inl hst), fun _ => rfl⟩
      · push_neg at hst
        by_cases hsp : start_pos ≤ needle.length
        · have hi0 : rfind_scan_start s needle start_pos
              = s.length - needle.length := by
            rw [rfind_scan_start]
            rw [if_pos hsp]
            rw [u64, u64, u64]
            omega
          have hres : ext_str_rfind_len s start_pos needle
              = rfind_scan s needle (s.length - needle.length) := by
            rw [ext_str_rfind_len, if_neg (by omega), if_neg (by omega)]
            rw [hi0, if_neg (by omega)]
          rw [hres, hi0]
          rw [(rfind_scan_spec s needle (s.length - needle.length) (by omega)).1]
          constructor
          · intro hall
            exact Or.inr (Or.inr hall)
          · intro hd
            rcases hd with h | h | h
            · omega
            · omega
            · exact h
        · push_neg at hsp
          have hi0 : rfind_scan_start s needle start_pos
              = s.length - start_pos - 1 := by
            rw [rfind_scan_start]
            rw [if_neg (by omega)]
            rw [u64, u64]
            omega
          have hres : ext_str_rfind_len s start_pos needle
              = rfind_scan s needle (s.length - start_pos - 1) := by
            rw [ext_str_rfind_len, if_neg (by omega), if_neg (by omega)]
            rw [hi0, if_neg (by omega)]
          rw [hres, hi0]
          rw [(rfind_scan_spec s needle (s.length - start_pos - 1) (by omega)).1]
          constructor
          · intro hall
            exact Or.inr (Or.inr hall)
          · intro hd
            rcases hd with h | h | h
            · omega
            · omega
            · exact h

/-- C7 witness: the sentinel/occurrence theorem applied to a concrete
string. -/
theorem find_rfind_sentinel_witness :
    (ext_str_find_len [10, 20, 10] 1 [10] ≠ ext_str_npos →
      1 ≤ ext_str_find_len [10, 20, 10] 1 [10]
      ∧ ext_str_find_len [10, 20, 10] 1 [10] + ([10] : List Nat).length
          ≤ ([10, 20, 10] : List Nat).length
      ∧ occurs_at [10, 20, 10] [10] (ext_str_find_len [10, 20, 10] 1 [10])
      ∧ (([10] : List Nat) ≠ [] →
          ext_str_find_len [10, 20, 10] 1 [10] < ([10, 20, 10] : List Nat).length))
    ∧ (ext_str_find_len [10, 20, 10] 1 [10] = ext_str_npos ↔
        ∀ i, 1 ≤ i → i + ([10] : List Nat).length ≤ ([10, 20, 10] : List Nat).length →
          ¬ occurs_at [10, 20, 10] [10] i)
    ∧ (ext_str_rfind_len [10, 20, 10] 1 [10] ≠ ext_str_npos →
        ext_str_rfind_len [10, 20, 10] 1 [10] ≤ ([10, 20, 10] : List Nat).length
        ∧ ext_str_rfind_len [10, 20, 10] 1 [10] + ([10] : List Nat).length
            ≤ ([10, 20, 10] : List Nat).length
        ∧ occurs_at [10, 20, 10] [10] (ext_str_rfind_len [10, 20, 10] 1 [10])
        ∧ (([10] : List Nat) ≠ [] →
            ext_str_rfind_len [10, 20, 10] 1 [10] < ([10, 20, 10] : List Nat).length))
    ∧ (([10] : List Nat) ≠ [] →
        (ext_str_rfind_len [10, 20, 10] 1 [10] = ext_str_npos ↔
          (([10, 20, 10] : List Nat).length < ([10] : List Nat).length
            ∨ ([10, 20, 10] : List Nat).length ≤ 1
            ∨ ∀ i, i ≤ rfind_scan_start [10, 20, 10] [10] 1 →
                ¬ occurs_at [10, 20, 10] [10] i))) :=
  find_rfind_sentinel [10, 20, 10] 1 [10] (by decide)

theorem split_go_eq (s : List Nat) (sep : Nat) :
    ∀ fuel i last toks, i + fuel = s.length → last ≤ i →
      split_go s sep fuel i last toks
        = toks ++ split_list sep ((s.drop last).take (i - last)) (s.drop i) := by
  intro fuel
  induction fuel with
  | zero =>
    intro i last toks hi hlast
    rw [split_go]
    have hdrop : s.drop i = [] := List.drop_eq_nil_of_le (by omega)
    rw [hdrop, split_list]
    have : s.length - last = i - last := by omega
    rw [this]
  | succ fuel ih =>
    intro i last toks hi hlast
    have hilt : i < s.length := by omega
    have hdrop : s.drop i = s[i] :: s.drop (i + 1) := List.drop_eq_getElem_cons hilt
    have hgetD : s.getD i 0 = s[i] := List.getD_eq_getElem s 0 hilt
    rw [split_go]
    split
    · rename_i hsep
      rw [ih (i + 1) (i + 1) _ (by omega) (le_refl _)]
      rw [hdrop, split_list]
      rw [hgetD] at hsep
      rw [if_pos hsep]
      have hz : i + 1 - (i + 1) = 0 := by omega
      rw [hz]
      simp
    · rename_i hsep
      rw [ih (i + 1) last _ (by omega) (by omega)]
      rw [hdrop, split_list]
      rw [hgetD] at hsep
      rw [if_neg (by simpa using hsep)]
      have hpend : (s.drop last).take (i + 1 - last)
          = (s.drop last).take (i - last) ++ [s[i]] := by
        have hstep : i + 1 - last = (i - last) + 1 := by omega
        rw [hstep, List.take_succ]
        congr 1
        rw [List.getElem?_drop]
        have hidx : last + (i - last) = i := by omega
        rw [hidx, List.getElem?_eq_getElem hilt]
        rfl
      rw [hpend]

theorem split_list_length (sep : Nat) :
    ∀ (l : List Nat) (pending : List Nat),
      (split_list sep pending l).length = l.count sep + 1 := by
  intro l
  induction l with
  | nil => intro pending; rfl
  | cons b rest ih =>
    intro pending
    rw [split_list]
    split
    · rename_i hb
      simp [ih, List.count_cons, hb]
    · rename_i hb
      simp [ih, List.count_cons, hb]

theorem split_list_ne_nil (sep : Nat) :
    ∀ (l : List Nat) (pending : List Nat), split_list sep pending l ≠ [] := by
  intro l
  induction l with
  | nil => intro p; simp [split_list]
  | cons b rest ih =>
    intro p
    rw [split_list]
    split
    · simp
    · exact ih _

theorem rejoin_cons (sep : Nat) (t : List Nat) (ls : List (List Nat)) (h : ls ≠ []) :
    rejoin sep (t :: ls) = t ++ sep :: rejoin sep ls := by
  cases ls with
  | nil => exact absurd rfl h
  | cons t2 ts => rfl

theorem split_list_rejoin (sep : Nat) :
    ∀ (l : List Nat) (pending : List Nat),
      rejoin sep (split_list sep pending l) = pending ++ l := by
  intro l
  induction l with
  | nil => intro p; simp [split_list, rejoin]
  | cons b rest ih =>
    intro p
    rw [split_list]
    split
    · rename_i hb
      rw [rejoin_cons sep p _ (split_list_ne_nil sep rest [])]
      rw [ih []]
      have hbe : b = sep := by simpa using hb
      rw [hbe]
      simp
    · rename_i hb
      rw [ih (p ++ [b])]
      simp

theorem split_list_sep_free (sep : Nat) :
    ∀ (l : List Nat) (pending : List Nat), pending.count sep = 0 →
      (split_list sep pending l).all (fun t => t.count sep == 0) = true := by
  intro l
  induction l with
  | nil =>
    intro p hp
    simp [split_list, hp]
  | cons b rest ih =>
    intro p hp
    rw [split_list]
    split
    · rename_i hb
      simp only [List.all_cons, Bool.and_eq_true]
      exact ⟨by simp [hp], ih [] rfl⟩
    · rename_i hb
      apply ih
      rw [List.count_append, hp, List.count_singleton]
      simp only [Nat.zero_add]
      rw [if_neg (by simpa using hb)]

/-- C10: ext_str_split returns exactly `count(sep) + 1` tokens; the tokens
contain no separator byte; interleaving the tokens with the separator byte
reconstructs the exact byte content of the string (so the tokens are the
maximal separator-free runs, in order); and splitting the empty string
yields one empty token. -/
theorem ext_str_split_tokens (s : List Nat) (sep : Nat) :
    (ext_str_split s sep).length = s.count sep + 1
    ∧ rejoin sep (ext_str_split s sep) = s
    ∧ (ext_str_split s sep).all (fun t => t.count sep == 0) = true
    ∧ ext_str_split [] sep = [[]] := by
  have hsplit : ext_str_split s sep = split_list sep [] s := by
    rw [ext_str_split, split_go_eq s sep s.length 0 0 [] (by omega) (le_refl 0)]
    simp
  refine ⟨?_, ?_, ?_, rfl⟩
  · rw [hsplit, split_list_length]
  · rw [hsplit, split_list_rejoin]
    simp
  · rw [hsplit]
    exact split_list_sep_free sep s [] rfl

end Extlib
